import Mathlib

/-!
Verification development for the DocMine knowledge-organization system.

This file gives a shallow embedding, in Lean 4, of the parts of the DocMine
repository that the specification claims speak about:

* `docmine/models/stable_id.py` — text normalization and SHA-256 based
  deterministic identifiers (SHA-256 is implemented concretely below and
  checked against the standard test vector).
* `docmine/models/{entity,resource_segment,information_resource}.py` — the
  data model records, including the confidence-validating constructors.
* `docmine/storage/knowledge_store.py` — the five tables and their
  upsert/query operations, modelled as pure functions over lists of rows
  (a query scanning a table corresponds to a scan of the list in insertion
  order; SQL fetchone corresponds to List.find?).
* `docmine/ingest/segmenter.py` — sentence splitting, windowing and the
  three segmentation formats.
* `docmine/ingest/knowledge_pipeline.py` and `docmine/kos_pipeline.py` — the
  ingestion orchestration.  External collaborators (entity extractor,
  embedder, uuid generation, the clock) are parameters of the model.  The
  pipeline additionally returns a trace of store-write events so that
  frame/effect claims ("no writes are issued") can be stated.
* `docmine/search/exact_recall.py` and the embedding search of
  `knowledge_store.py`.

Machine reals (numpy float64) are modelled by ℚ for stored vector entries
and ℝ for derived scores; an IEEE division whose divisor is zero produces a
non-finite value (NaN or ±infinity), which the model marks with `none`.
-/

namespace DocMine

/-! ## Python string primitives

Python `str.split()` with no arguments splits on runs of Unicode whitespace
and discards empty strings; `str.strip()` removes leading and trailing
Unicode whitespace.  `isPyWs` enumerates the code points Python treats as
whitespace for these operations. -/

/-- Unicode whitespace as used by Python `str.split` / `str.strip` and by
the regex class backslash-s on `str` patterns. -/
def isPyWs (c : Char) : Bool :=
  c == ' ' || c == '\t' || c == '\n' || c == '\r' ||
  c.toNat == 0x0b || c.toNat == 0x0c ||
  c.toNat == 0x1c || c.toNat == 0x1d || c.toNat == 0x1e || c.toNat == 0x1f ||
  c.toNat == 0x85 || c.toNat == 0xa0 || c.toNat == 0x1680 ||
  (0x2000 ≤ c.toNat && c.toNat ≤ 0x200a) ||
  c.toNat == 0x2028 || c.toNat == 0x2029 || c.toNat == 0x202f ||
  c.toNat == 0x205f || c.toNat == 0x3000

/-- Accumulator worker for Python `str.split()`: walk the characters,
collecting the current word reversed in `acc`; whitespace ends a word,
and empty words are never emitted. -/
def pySplitAux : List Char → List Char → List (List Char)
  | [], acc => if acc.isEmpty then [] else [acc.reverse]
  | c :: cs, acc =>
    if isPyWs c then
      if acc.isEmpty then pySplitAux cs [] else acc.reverse :: pySplitAux cs []
    else pySplitAux cs (c :: acc)

/-- Python `text.split()` (no separator): split on whitespace runs,
dropping empty pieces. -/
def pySplit (l : List Char) : List (List Char) := pySplitAux l []

/-- Python `text.strip()`: drop leading and trailing whitespace. -/
def pyStrip (l : List Char) : List Char :=
  ((l.dropWhile isPyWs).reverse.dropWhile isPyWs).reverse

/-- Join a list of words with single spaces, as Python
`" ".join(words)` does. -/
def joinSp : List (List Char) → List Char
  | [] => []
  | [w] => w
  | w :: ws => w ++ ' ' :: joinSp ws

/-! ## SHA-256

A concrete implementation of FIPS 180-4 SHA-256 over byte lists, used to
model `hashlib.sha256(...).hexdigest()`.  Words are naturals taken mod
2^32. -/

/-- Rotate a 32-bit word right by `n` bits. -/
def rotr32 (n x : Nat) : Nat := ((x >>> n) ||| (x <<< (32 - n))) &&& 0xffffffff

/-- One step of the SHA-256 message-schedule extension. -/
def schedStep (w : List Nat) : List Nat :=
  let n := w.length
  let x := w.getD (n - 2) 0
  let s1 := (rotr32 17 x) ^^^ (rotr32 19 x) ^^^ (x >>> 10)
  let y := w.getD (n - 15) 0
  let s0 := (rotr32 7 y) ^^^ (rotr32 18 y) ^^^ (y >>> 3)
  w ++ [(s1 + w.getD (n - 7) 0 + s0 + w.getD (n - 16) 0) % 4294967296]

/-- Iterate the message-schedule extension. -/
def sched : Nat → List Nat → List Nat
  | 0, w => w
  | k+1, w => sched k (schedStep w)

/-- Working state of the SHA-256 compression function (registers a..h). -/
structure Sha256State where
  sa : Nat
  sb : Nat
  sc : Nat
  sd : Nat
  se : Nat
  sf : Nat
  sg : Nat
  sh : Nat

/-- The SHA-256 round constants of FIPS 180-4 (the table 0x428a2f98,
0x71374491, ... written in decimal). -/
def sha256K : List Nat :=
  [1116352408, 1899447441, 3049323471, 3921009573, 961987163, 1508970993,
   2453635748, 2870763221, 3624381080, 310598401, 607225278, 1426881987,
   1925078388, 2162078206, 2614888103, 3248222580, 3835390401, 4022224774,
   264347078, 604807628, 770255983, 1249150122, 1555081692, 1996064986,
   2554220882, 2821834349, 2952996808, 3210313671, 3336571891, 3584528711,
   113926993, 338241895, 666307205, 773529912, 1294757372, 1396182291,
   1695183700, 1986661051, 2177026350, 2456956037, 2730485921, 2820302411,
   3259730800, 3345764771, 3516065817, 3600352804, 4094571909, 275423344,
   430227734, 506948616, 659060556, 883997877, 958139571, 1322822218,
   1537002063, 1747873779, 1955562222, 2024104815, 2227730452, 2361852424,
   2428436474, 2756734187, 3204031479, 3329325298]

/-- The SHA-256 initial hash value of FIPS 180-4 (0x6a09e667, ... in
decimal). -/
def sha256H0 : List Nat :=
  [1779033703, 3144134277, 1013904242, 2773480762,
   1359893119, 2600822924, 528734635, 1541459225]

/-- One round of the SHA-256 compression function. -/
def compStep (st : Sha256State) (kw : Nat × Nat) : Sha256State :=
  let bigS1 := rotr32 6 st.se ^^^ rotr32 11 st.se ^^^ rotr32 25 st.se
  let ch := (st.se &&& st.sf) ^^^ ((st.se ^^^ 0xffffffff) &&& st.sg)
  let t1 := (st.sh + bigS1 + ch + kw.1 + kw.2) % 4294967296
  let bigS0 := rotr32 2 st.sa ^^^ rotr32 13 st.sa ^^^ rotr32 22 st.sa
  let mj := (st.sa &&& st.sb) ^^^ (st.sa &&& st.sc) ^^^ (st.sb &&& st.sc)
  let t2 := (bigS0 + mj) % 4294967296
  ⟨(t1 + t2) % 4294967296, st.sa, st.sb, st.sc, (st.sd + t1) % 4294967296, st.se, st.sf, st.sg⟩

/-- Compress one 512-bit block (given as 16 words) into the running hash. -/
def compressBlock (hs : List Nat) (block : List Nat) : List Nat :=
  let w := sched 48 block
  let st0 : Sha256State :=
    ⟨hs.getD 0 0, hs.getD 1 0, hs.getD 2 0, hs.getD 3 0, hs.getD 4 0, hs.getD 5 0, hs.getD 6 0, hs.getD 7 0⟩
  let st := (sha256K.zip w).foldl compStep st0
  [(hs.getD 0 0 + st.sa) % 4294967296, (hs.getD 1 0 + st.sb) % 4294967296,
   (hs.getD 2 0 + st.sc) % 4294967296, (hs.getD 3 0 + st.sd) % 4294967296,
   (hs.getD 4 0 + st.se) % 4294967296, (hs.getD 5 0 + st.sf) % 4294967296,
   (hs.getD 6 0 + st.sg) % 4294967296, (hs.getD 7 0 + st.sh) % 4294967296]

/-- Split a list into consecutive chunks of size `n`; the first argument is
recursion fuel (instantiated with the list length, which suffices for any
chunk size of at least one). -/
def chunksF (n : Nat) : Nat → List α → List (List α)
  | _, [] => []
  | 0, _ :: _ => []
  | f+1, l => l.take n :: chunksF n f (l.drop n)

/-- Split a list into consecutive chunks of size `n`. -/
def chunksOf (n : Nat) (l : List α) : List (List α) := chunksF n l.length l

/-- SHA-256 padding: append the 0x80 byte, zeros, and the 64-bit big-endian
message bit length, reaching a multiple of 64 bytes. -/
def sha256Pad (msg : List Nat) : List Nat :=
  let len := msg.length
  let z := (64 - ((len + 9) % 64)) % 64
  let bitLen := 8 * len
  msg ++ 0x80 :: List.replicate z 0 ++
    [(bitLen >>> 56) &&& 255, (bitLen >>> 48) &&& 255, (bitLen >>> 40) &&& 255, (bitLen >>> 32) &&& 255,
     (bitLen >>> 24) &&& 255, (bitLen >>> 16) &&& 255, (bitLen >>> 8) &&& 255, bitLen &&& 255]

/-- Assemble four big-endian bytes into a 32-bit word. -/
def wordOfBytes (bs : List Nat) : Nat :=
  (bs.getD 0 0) <<< 24 ||| (bs.getD 1 0) <<< 16 ||| (bs.getD 2 0) <<< 8 ||| bs.getD 3 0

/-- SHA-256 of a byte list, as the list of eight 32-bit hash words. -/
def sha256Words (msg : List Nat) : List Nat :=
  (chunksOf 64 (sha256Pad msg)).foldl
    (fun hs block => compressBlock hs ((chunksOf 4 block).map wordOfBytes)) sha256H0

/-- Lower-case hex digit for a nibble. -/
def hexDigit (n : Nat) : Char := "0123456789abcdef".data.getD n '0'

/-- Lower-case hex rendering of one 32-bit word (eight digits). -/
def hexWord (x : Nat) : List Char :=
  [hexDigit ((x >>> 28) &&& 15), hexDigit ((x >>> 24) &&& 15), hexDigit ((x >>> 20) &&& 15),
   hexDigit ((x >>> 16) &&& 15), hexDigit ((x >>> 12) &&& 15), hexDigit ((x >>> 8) &&& 15),
   hexDigit ((x >>> 4) &&& 15), hexDigit (x &&& 15)]

/-- Model of Python `hashlib.sha256(msg).hexdigest()`: the 64-character
lower-case hex digest of SHA-256. -/
def sha256Hex (msg : List Nat) : String :=
  ⟨(sha256Words msg).foldr (fun w acc => hexWord w ++ acc) []⟩

/-- UTF-8 encoding of a single character (1 to 4 bytes). -/
def utf8Char (c : Char) : List Nat :=
  let n := c.toNat
  if n < 0x80 then [n]
  else if n < 0x800 then [0xC0 ||| (n >>> 6), 0x80 ||| (n &&& 0x3F)]
  else if n < 0x10000 then [0xE0 ||| (n >>> 12), 0x80 ||| ((n >>> 6) &&& 0x3F), 0x80 ||| (n &&& 0x3F)]
  else [0xF0 ||| (n >>> 18), 0x80 ||| ((n >>> 12) &&& 0x3F), 0x80 ||| ((n >>> 6) &&& 0x3F), 0x80 ||| (n &&& 0x3F)]

/-- Model of Python `s.encode("utf-8")`. -/
def utf8Encode (s : String) : List Nat := (s.data.map utf8Char).flatten

/-! ## stable_id.py -/

/-- Model of `stable_id.normalize_text`: Python
`" ".join(text.strip().split())` — collapse internal whitespace runs to
single spaces and trim. -/
def normalize_text (s : String) : String := ⟨joinSp (pySplit (pyStrip s.data))⟩

/-- Model of `stable_id.generate_segment_id`: the SHA-256 hex digest of the
UTF-8 encoding of the pipe-joined components, the text normalized first. -/
def generate_segment_id (nsp source_uri provenance_key text : String) : String :=
  let normalized := normalize_text text
  let components := nsp ++ "|" ++ source_uri ++ "|" ++ provenance_key ++ "|" ++ normalized
  sha256Hex (utf8Encode components)

/-- Model of `stable_id.generate_text_hash`: SHA-256 hex digest of the
normalized text. -/
def generate_text_hash (text : String) : String :=
  sha256Hex (utf8Encode (normalize_text text))

/-- Model of `stable_id.generate_content_hash`: SHA-256 hex digest of raw
bytes. -/
def generate_content_hash (content : List Nat) : String := sha256Hex content

/-! ## Data model (models/information_resource.py, resource_segment.py, entity.py)

Timestamps (`datetime.utcnow()`) are modelled by a `Nat` clock value that the
caller supplies; JSON metadata blobs are modelled as association lists;
`aliases` is a list of strings.  Record ids are opaque strings. -/

/-- Row of the `information_resources` table / the `InformationResource`
dataclass.  `nsp` is the namespace field (namespace is a Lean keyword). -/
structure InformationResource where
  id : String
  nsp : String
  source_type : String
  source_uri : String
  content_hash : String
  metadata : List (String × String)
  created_at : Nat
  updated_at : Nat
deriving DecidableEq

/-- Structured location descriptor, one constructor per segmentation format
(the code stores it JSON-serialized; the claims never inspect the raw
JSON). -/
inductive Provenance where
  | page (page sentence sentence_count : Nat)
  | md (heading_path : String) (para sentence sentence_count : Nat)
  | plain (sentence sentence_count : Nat)
deriving DecidableEq

/-- Row of the `resource_segments` table / the `ResourceSegment`
dataclass. -/
structure ResourceSegment where
  id : String
  ir_id : String
  segment_index : Nat
  text : String
  provenance : Provenance
  text_hash : String
  created_at : Nat
deriving DecidableEq

/-- Row of the `entities` table / the `Entity` dataclass. -/
structure Entity where
  id : String
  nsp : String
  type : String
  name : String
  aliases : List String
  metadata : List (String × String)
  created_at : Nat
  updated_at : Nat
deriving DecidableEq

/-- Row of the `segment_entity_links` table / the `EntityLink` dataclass.
Confidence is a rational, modelling the Python float. -/
structure EntityLink where
  segment_id : String
  entity_id : String
  link_type : String
  confidence : ℚ
  created_at : Nat
deriving DecidableEq

/-- Constructing an `EntityLink` runs `__post_init__`, which raises
`ValueError` unless `0.0 <= confidence <= 1.0`; the raise is modelled by
`Except.error`. -/
def mkEntityLink (segment_id entity_id link_type : String) (confidence : ℚ)
    (now : Nat) : Except String EntityLink :=
  if 0 ≤ confidence ∧ confidence ≤ 1 then
    .ok ⟨segment_id, entity_id, link_type, confidence, now⟩
  else .error "Confidence must be between 0.0 and 1.0"

/-- The `ExtractedEntity` dataclass of extraction/base_extractor.py. -/
structure ExtractedEntity where
  type : String
  name : String
  aliases : List String
  confidence : ℚ
  metadata : List (String × String)
deriving DecidableEq

/-- Constructing an `ExtractedEntity` validates the confidence bound in
`__post_init__`, exactly as `EntityLink` does. -/
def mkExtractedEntity (type name : String) (aliases : List String)
    (confidence : ℚ) (metadata : List (String × String)) :
    Except String ExtractedEntity :=
  if 0 ≤ confidence ∧ confidence ≤ 1 then
    .ok ⟨type, name, aliases, confidence, metadata⟩
  else .error "Confidence must be between 0.0 and 1.0"

/-- Row of the `embeddings` table; the vector entries are rationals
modelling numpy float64 components. -/
structure Embedding where
  segment_id : String
  model : String
  vector : List ℚ
  created_at : Nat
deriving DecidableEq

/-! ## KnowledgeStore (storage/knowledge_store.py)

Each table is a list of rows in insertion order.  A SQL scan corresponds to
scanning the list from the head, `fetchone` to `List.find?`, an UPDATE to a
`List.map` touching the matching rows, an INSERT to appending, and DuckDB
INSERT OR REPLACE (on the tables whose key has a UNIQUE constraint) to
removing the rows with the same key and appending the new row. -/

/-- The five tables of the store. -/
structure KnowledgeStore where
  information_resources : List InformationResource
  resource_segments : List ResourceSegment
  entities : List Entity
  segment_entity_links : List EntityLink
  embeddings : List Embedding
deriving DecidableEq

/-- Model of `KnowledgeStore.get_ir_by_uri`. -/
def getIRByUri (s : KnowledgeStore) (nsp source_uri : String) :
    Option InformationResource :=
  s.information_resources.find? (fun r => r.nsp == nsp && r.source_uri == source_uri)

/-- Model of `KnowledgeStore.get_ir_by_id`. -/
def getIRById (s : KnowledgeStore) (ir_id : String) : Option InformationResource :=
  s.information_resources.find? (fun r => r.id == ir_id)

/-- Python `dict.update`: existing keys keep their position and receive the
incoming value; unseen incoming keys are appended. -/
def mergeMeta (old new : List (String × String)) : List (String × String) :=
  old.map (fun kv => (kv.1, (((new.find? (fun nv => nv.1 == kv.1)).map Prod.snd).getD kv.2))) ++
  new.filter (fun nv => (old.find? (fun kv => kv.1 == nv.1)).isNone)

/-- Model of `KnowledgeStore.upsert_information_resource`: look up by
(namespace, source_uri); if present, UPDATE content_hash/metadata/updated_at
of that row and return the incoming record carrying the existing id and
created_at; else INSERT. -/
def upsertInformationResource (now : Nat) (ir : InformationResource)
    (s : KnowledgeStore) : InformationResource × KnowledgeStore :=
  match getIRByUri s ir.nsp ir.source_uri with
  | some existing =>
    ({ ir with id := existing.id, created_at := existing.created_at, updated_at := now },
     { s with information_resources := s.information_resources.map (fun r =>
         if r.id == existing.id then
           { r with content_hash := ir.content_hash, metadata := ir.metadata, updated_at := now }
         else r) })
  | none =>
    (ir, { s with information_resources := s.information_resources ++ [ir] })

/-- Model of `KnowledgeStore.get_segment_by_id`. -/
def getSegmentById (s : KnowledgeStore) (segment_id : String) : Option ResourceSegment :=
  s.resource_segments.find? (fun r => r.id == segment_id)

/-- Model of `KnowledgeStore.upsert_segment`: look up by id; if present,
UPDATE text/provenance/text_hash (created_at of the row is preserved) and
return the segment carrying the existing created_at; else INSERT. -/
def upsertSegment (seg : ResourceSegment) (s : KnowledgeStore) :
    ResourceSegment × KnowledgeStore :=
  match getSegmentById s seg.id with
  | some existing =>
    ({ seg with created_at := existing.created_at },
     { s with resource_segments := s.resource_segments.map (fun r =>
         if r.id == seg.id then
           { r with text := seg.text, provenance := seg.provenance, text_hash := seg.text_hash }
         else r) })
  | none =>
    (seg, { s with resource_segments := s.resource_segments ++ [seg] })

/-- Model of `KnowledgeStore.bulk_upsert_segments` (upsert one by one). -/
def bulkUpsertSegments (segs : List ResourceSegment) (s : KnowledgeStore) :
    KnowledgeStore :=
  segs.foldl (fun acc seg => (upsertSegment seg acc).2) s

/-- Model of `KnowledgeStore.get_segments_for_ir` (ORDER BY segment_index,
via a stable merge sort). -/
def getSegmentsForIR (s : KnowledgeStore) (ir_id : String) : List ResourceSegment :=
  (s.resource_segments.filter (fun r => r.ir_id == ir_id)).mergeSort
    (fun a b => Nat.ble a.segment_index b.segment_index)

/-- Model of `KnowledgeStore.count_segments`: with a namespace, COUNT of the
join of segments with their owning IR filtered to that namespace; without,
COUNT of all segments.  (The id column of information_resources is a
primary key, so the join matches a segment with at most one IR row.) -/
def countSegments (s : KnowledgeStore) (nsp : Option String) : Nat :=
  match nsp with
  | some n =>
    (s.resource_segments.filter (fun seg =>
      match getIRById s seg.ir_id with
      | some ir => ir.nsp == n
      | none => false)).length
  | none => s.resource_segments.length

/-- Model of `KnowledgeStore.get_entity_by_name` (exact match on namespace,
type and name; fetchone). -/
def getEntityByName (s : KnowledgeStore) (nsp entity_type name : String) :
    Option Entity :=
  s.entities.find? (fun r => r.nsp == nsp && r.type == entity_type && r.name == name)

/-- Model of `KnowledgeStore.get_entity_by_id`. -/
def getEntityById (s : KnowledgeStore) (entity_id : String) : Option Entity :=
  s.entities.find? (fun r => r.id == entity_id)

/-- Model of `KnowledgeStore.upsert_entity`: look up by (namespace, type,
name); if present, UPDATE aliases/metadata/updated_at of that row (id and
created_at of the row are untouched) and return the incoming entity
carrying the existing id and created_at; else INSERT. -/
def upsertEntity (now : Nat) (e : Entity) (s : KnowledgeStore) :
    Entity × KnowledgeStore :=
  match getEntityByName s e.nsp e.type e.name with
  | some existing =>
    ({ e with id := existing.id, created_at := existing.created_at, updated_at := now },
     { s with entities := s.entities.map (fun r =>
         if r.id == existing.id then
           { r with aliases := e.aliases, metadata := e.metadata, updated_at := now }
         else r) })
  | none =>
    (e, { s with entities := s.entities ++ [e] })

/-- Model of `KnowledgeStore.list_entities` (optional namespace and type
filters, ORDER BY name). -/
def listEntities (s : KnowledgeStore) (nsp entity_type : Option String) :
    List Entity :=
  (s.entities.filter (fun r =>
    (match nsp with | some n => r.nsp == n | none => true) &&
    (match entity_type with | some t => r.type == t | none => true))).mergeSort
    (fun a b => decide (a.name ≤ b.name))

/-- Model of `KnowledgeStore.add_entity_link`: INSERT OR REPLACE keyed by
the UNIQUE(segment_id, entity_id, link_type) constraint. -/
def addEntityLink (link : EntityLink) (s : KnowledgeStore) : KnowledgeStore :=
  { s with segment_entity_links :=
      s.segment_entity_links.filter (fun l =>
        !(l.segment_id == link.segment_id && l.entity_id == link.entity_id &&
          l.link_type == link.link_type)) ++ [link] }

/-- Model of `KnowledgeStore.bulk_add_entity_links`. -/
def bulkAddEntityLinks (links : List EntityLink) (s : KnowledgeStore) :
    KnowledgeStore :=
  links.foldl (fun acc l => addEntityLink l acc) s

/-- Model of `KnowledgeStore.get_segments_for_entity`, the exact-recall
primitive: join links with entity_id equal to the argument against the
segments table, ORDER BY the segment created_at. -/
def getSegmentsForEntity (s : KnowledgeStore) (entity_id : String) :
    List (ResourceSegment × EntityLink) :=
  ((s.segment_entity_links.filter (fun l => l.entity_id == entity_id)).filterMap
    (fun l => (getSegmentById s l.segment_id).map (fun seg => (seg, l)))).mergeSort
    (fun a b => Nat.ble a.1.created_at b.1.created_at)

/-- Model of `KnowledgeStore.add_embedding`: INSERT OR REPLACE keyed by the
segment_id primary key. -/
def addEmbedding (now : Nat) (segment_id model : String) (vector : List ℚ)
    (s : KnowledgeStore) : KnowledgeStore :=
  { s with embeddings :=
      s.embeddings.filter (fun e => !(e.segment_id == segment_id)) ++
      [⟨segment_id, model, vector, now⟩] }

/-- Model of `KnowledgeStore.get_embedding`. -/
def getEmbedding (s : KnowledgeStore) (segment_id : String) :
    Option (String × List ℚ) :=
  (s.embeddings.find? (fun e => e.segment_id == segment_id)).map
    (fun e => (e.model, e.vector))

/-! ## DeterministicSegmenter (ingest/segmenter.py) -/

/-- The regex class [.!?] of `_split_sentences`. -/
def isSentEnd (c : Char) : Bool := c == '.' || c == '!' || c == '?'

/-- The regex class [A-Z]. -/
def isUpperAZ (c : Char) : Bool := 'A' ≤ c && c ≤ 'Z'

/-- The lookbehind (?<=[.!?]) applied to the reversed prefix: does the
character just before the current position end a sentence? -/
def headSentEnd : List Char → Bool
  | p :: _ => isSentEnd p
  | [] => false

/-- The lookahead (?=[A-Z]): does the remaining text start with an
uppercase letter? -/
def headUpper : List Char → Bool
  | u :: _ => isUpperAZ u
  | [] => false

/-- Worker modelling Python
`re.split(r"(?<=[.!?])\s+(?=[A-Z])", text)`: a split point is a maximal
whitespace run preceded by one of `.!?` and followed by an uppercase
letter; the run is consumed.  `acc` holds the current piece reversed; the
fuel argument is instantiated with the remaining length. -/
def reSplitF : Nat → List Char → List Char → List (List Char)
  | _, [], acc => [acc.reverse]
  | 0, l, acc => [acc.reverse ++ l]
  | f+1, c :: cs, acc =>
    if isPyWs c && headSentEnd acc && headUpper (cs.dropWhile isPyWs) then
      acc.reverse :: reSplitF f (cs.dropWhile isPyWs) []
    else
      reSplitF f cs (c :: acc)

/-- Model of `DeterministicSegmenter._split_sentences`: regex split, strip
each piece, drop empties, drop pieces shorter than 20 characters. -/
def split_sentences (text : String) : List String :=
  let pieces := reSplitF text.data.length text.data []
  let cleaned := (pieces.map pyStrip).filter (fun sl => !sl.isEmpty)
  (cleaned.filter (fun sl => 20 ≤ sl.length)).map (fun sl => (⟨sl⟩ : String))

/-- The values of Python `range(0, len(l), n)` paired with the length-`n`
slices of `l` they start, modelling the sentence-window loop.  The first
argument is recursion fuel (instantiated with the list length). -/
def batchesF (n : Nat) : Nat → Nat → List α → List (Nat × List α)
  | _, _, [] => []
  | 0, _, _ :: _ => []
  | f+1, i, l => (i, l.take n) :: batchesF n f (i + n) (l.drop n)

/-- Sentence windows of size `n` with their starting sentence offset. -/
def batches (n : Nat) (l : List α) : List (Nat × List α) := batchesF n l.length 0 l

/-- The shared shape of the three segment-emission loops: fold over the
sentence windows; join each window with single spaces; skip windows that
are empty after strip; otherwise append a segment built by `mk` from the
window start offset, the window, and the running position (the length of
the accumulator at emission time, which is how the source assigns
`segment_index`). -/
def segEmitLoop (n : Nat) (mk : Nat → List String → Nat → ResourceSegment)
    (sentences : List String) (acc : List ResourceSegment) : List ResourceSegment :=
  (batches n sentences).foldl (fun acc2 b =>
    if (pyStrip (joinSp (b.2.map String.data))).isEmpty then acc2
    else acc2 ++ [mk b.1 b.2 acc2.length]) acc

/-- Model of `DeterministicSegmenter.segment_pages`: pages are (page_num,
text) pairs; `segment_index` is the global running counter across the whole
page list. -/
def segment_pages (n : Nat) (pages : List (Nat × String))
    (ir_id nsp source_uri : String) (now : Nat) : List ResourceSegment :=
  pages.foldl (fun acc page =>
    segEmitLoop n (fun sent_idx batch pos =>
      let segment_text : String := ⟨joinSp (batch.map String.data)⟩
      { id := generate_segment_id nsp source_uri
          (toString page.1 ++ ":" ++ toString sent_idx) segment_text,
        ir_id := ir_id, segment_index := pos, text := segment_text,
        provenance := .page page.1 sent_idx batch.length,
        text_hash := generate_text_hash segment_text, created_at := now })
      (split_sentences page.2) acc) []

/-- Model of `DeterministicSegmenter.segment_text` (plain text):
`segment_index` restarts at zero and the provenance key is the sentence
offset alone. -/
def segment_text (n : Nat) (text : String) (ir_id nsp source_uri : String)
    (now : Nat) : List ResourceSegment :=
  segEmitLoop n (fun sent_idx batch pos =>
    let segment_text : String := ⟨joinSp (batch.map String.data)⟩
    { id := generate_segment_id nsp source_uri (toString sent_idx) segment_text,
      ir_id := ir_id, segment_index := pos, text := segment_text,
      provenance := .plain sent_idx batch.length,
      text_hash := generate_text_hash segment_text, created_at := now })
    (split_sentences text) []

/-- Model of `DeterministicSegmenter._segment_paragraph`: the paragraph
lines are joined with spaces, sentence-split, windowed; `segment_index` is
`start_index` plus the number of segments already emitted for this
paragraph. -/
def segment_paragraph (n : Nat) (para_lines : List String) (heading : String)
    (para_index : Nat) (ir_id nsp source_uri : String) (start_index now : Nat) :
    List ResourceSegment :=
  segEmitLoop n (fun sent_idx batch pos =>
    let segment_text : String := ⟨joinSp (batch.map String.data)⟩
    { id := generate_segment_id nsp source_uri
        (heading ++ ":" ++ toString para_index ++ ":" ++ toString sent_idx) segment_text,
      ir_id := ir_id, segment_index := start_index + pos, text := segment_text,
      provenance := .md heading para_index sent_idx batch.length,
      text_hash := generate_text_hash segment_text, created_at := now })
    (split_sentences (⟨joinSp (para_lines.map String.data)⟩ : String)) []

/-- Loop state of `segment_markdown`. -/
structure MdState where
  heading : String
  para : List String
  para_index : Nat
  segs : List ResourceSegment
  global_index : Nat

/-- One line of the `segment_markdown` loop.  On a heading line the
accumulated paragraph is flushed (when nonempty) and then the heading is
replaced; note the source adds the length of the WHOLE extended segment
list to `global_index`, not just the newly produced ones. -/
def mdLine (n : Nat) (ir_id nsp source_uri : String) (now : Nat)
    (st : MdState) (line : String) : MdState :=
  if (match line.data with | '#' :: _ => true | _ => false) then
    let st' :=
      if st.para.isEmpty then st
      else
        let newsegs := segment_paragraph n st.para st.heading st.para_index
          ir_id nsp source_uri st.global_index now
        let segs' := st.segs ++ newsegs
        { st with
          segs := segs'
          global_index := st.global_index + segs'.length
          para_index := st.para_index + 1
          para := [] }
    { st' with heading := ⟨pyStrip (line.data.dropWhile (fun c => c == '#'))⟩ }
  else if !(pyStrip line.data).isEmpty then
    { st with para := st.para ++ [line] }
  else st

/-- Python `text.split(sep)` for a single-character separator: split at
every occurrence, keeping empty pieces. -/
def splitOnChar (sep : Char) (l : List Char) : List (List Char) :=
  l.foldr (fun c acc =>
    match acc with
    | [] => if c == sep then [[], []] else [[c]]
    | p :: rest => if c == sep then [] :: p :: rest else (c :: p) :: rest) [[]]

/-- Model of `DeterministicSegmenter.segment_markdown`: iterate the lines,
flush the final paragraph. -/
def segment_markdown (n : Nat) (text : String) (ir_id nsp source_uri : String)
    (now : Nat) : List ResourceSegment :=
  let lines := (splitOnChar '\n' text.data).map (fun sl => (⟨sl⟩ : String))
  let st := lines.foldl (mdLine n ir_id nsp source_uri now)
    ⟨"root", [], 0, [], 0⟩
  if st.para.isEmpty then st.segs
  else st.segs ++ segment_paragraph n st.para st.heading st.para_index
    ir_id nsp source_uri st.global_index now

/-! ## Ingestion pipeline (ingest/knowledge_pipeline.py, kos_pipeline.py)

External collaborators are parameters: `extract` is the deterministic
entity extractor, `embed` the embedding model, `idGen` models
`uuid.uuid4()` (the k-th generated id of a run).  The pipeline returns,
besides the store, a trace of store-write events so that frame claims can
be stated; `segmenterRun` marks an invocation of the segmenter. -/

/-- Store-write / work events traced by the pipeline model. -/
inductive StoreEvent where
  | irInsert
  | irUpdate
  | segmenterRun
  | segmentWrite
  | entityWrite
  | linkWrite
  | embeddingWrite
deriving DecidableEq

/-- The collaborators of the pipeline. -/
structure PipelineEnv where
  extract : String → List ExtractedEntity
  embed : String → List ℚ
  idGen : Nat → String
  sentences_per_segment : Nat

/-- Model of `KnowledgeIngestionPipeline._register_ir` for a file whose
decoded text is `content` (its on-disk bytes being the UTF-8 encoding):
compute the content hash, look up the IR by (namespace, source_uri); on a
hash match return the existing record untouched (the cheap path — no store
write, no event); on a mismatch update it (merging metadata when the
incoming metadata is nonempty); otherwise insert a fresh record. -/
def register_ir (env : PipelineEnv) (content : String)
    (nsp source_type source_uri : String) (metadata : List (String × String))
    (now : Nat) (s : KnowledgeStore) (ctr : Nat) :
    InformationResource × KnowledgeStore × Nat × List StoreEvent :=
  let content_hash := generate_content_hash (utf8Encode content)
  match getIRByUri s nsp source_uri with
  | some existing =>
    if existing.content_hash ≠ content_hash then
      let ir := { existing with
        content_hash := content_hash
        metadata := if metadata.isEmpty then existing.metadata
                    else mergeMeta existing.metadata metadata }
      let r := upsertInformationResource now ir s
      (r.1, r.2, ctr, [.irUpdate])
    else
      (existing, s, ctr, [])
  | none =>
    let ir : InformationResource :=
      { id := env.idGen ctr, nsp := nsp, source_type := source_type,
        source_uri := source_uri, content_hash := content_hash,
        metadata := metadata, created_at := now, updated_at := now }
    let r := upsertInformationResource now ir s
    (r.1, r.2, ctr + 1, [.irInsert])

/-- State threaded through `_extract_and_link_entities`. -/
structure LinkState where
  store : KnowledgeStore
  ctr : Nat
  ents : List Entity
  links : List EntityLink
  events : List StoreEvent

/-- Inner loop of `_extract_and_link_entities` over the candidates of one
segment: find or create the canonical entity, then construct the
"mentions" link (whose constructor validates the confidence — a failure
aborts with the store as mutated so far, links not yet written). -/
def linkCandidates (env : PipelineEnv) (nsp : String) (now : Nat)
    (segId : String) : List ExtractedEntity → LinkState → LinkState × Option String
  | [], st => (st, none)
  | c :: rest, st =>
    let found := getEntityByName st.store nsp c.type c.name
    let p : Entity × LinkState :=
      match found with
      | some e => (e, st)
      | none =>
        let e : Entity :=
          { id := env.idGen st.ctr, nsp := nsp, type := c.type, name := c.name,
            aliases := c.aliases, metadata := c.metadata,
            created_at := now, updated_at := now }
        let r := upsertEntity now e st.store
        (r.1, { st with
                store := r.2
                ctr := st.ctr + 1
                ents := st.ents ++ [r.1]
                events := st.events ++ [.entityWrite] })
    match mkEntityLink segId p.1.id "mentions" c.confidence now with
    | .ok link => linkCandidates env nsp now segId rest
        { p.2 with links := p.2.links ++ [link] }
    | .error msg => (p.2, some msg)

/-- Outer loop of `_extract_and_link_entities` over the segments. -/
def linkSegments (env : PipelineEnv) (nsp : String) (now : Nat) :
    List ResourceSegment → LinkState → LinkState × Option String
  | [], st => (st, none)
  | seg :: rest, st =>
    match linkCandidates env nsp now seg.id (env.extract seg.text) st with
    | (st', none) => linkSegments env nsp now rest st'
    | (st', some m) => (st', some m)

/-- Model of `KnowledgeIngestionPipeline._extract_and_link_entities`: run
the extractor over every segment, canonicalize entities, then bulk-add the
collected links. -/
def extract_and_link_entities (env : PipelineEnv) (nsp : String) (now : Nat)
    (segs : List ResourceSegment) (s : KnowledgeStore) (ctr : Nat) :
    LinkState × Option String :=
  match linkSegments env nsp now segs ⟨s, ctr, [], [], []⟩ with
  | (st, some m) => (st, some m)
  | (st, none) =>
    ({ st with
       store := bulkAddEntityLinks st.links st.store
       events := st.events ++ st.links.map (fun _ => .linkWrite) }, none)

/-- Result of a successful `ingest_text`. -/
structure IngestResult where
  ir : InformationResource
  segments : List ResourceSegment
  entities : List Entity
deriving DecidableEq

/-- Output of the `ingest_text` model. -/
structure IngestOut where
  store : KnowledgeStore
  ctr : Nat
  events : List StoreEvent
  result : Except String IngestResult

/-- Model of `KnowledgeIngestionPipeline.ingest_text`: register the IR,
bail out on empty content or an empty segmentation, bulk-upsert the
segments, then extract and link entities.  A raised `ValueError` from link
construction surfaces as `.error` with the store as committed so far. -/
def ingest_text (env : PipelineEnv) (content nsp source_uri : String)
    (metadata : List (String × String)) (now : Nat)
    (s : KnowledgeStore) (ctr : Nat) : IngestOut :=
  let r := register_ir env content nsp "txt" source_uri metadata now s ctr
  let ir := r.1
  let s1 := r.2.1
  let ctr1 := r.2.2.1
  let ev1 := r.2.2.2
  if (pyStrip content.data).isEmpty then ⟨s1, ctr1, ev1, .ok ⟨ir, [], []⟩⟩
  else
    let segs := segment_text env.sentences_per_segment content ir.id nsp ir.source_uri now
    let ev2 := ev1 ++ [.segmenterRun]
    if segs.isEmpty then ⟨s1, ctr1, ev2, .ok ⟨ir, [], []⟩⟩
    else
      let s2 := bulkUpsertSegments segs s1
      let ev3 := ev2 ++ segs.map (fun _ => .segmentWrite)
      match extract_and_link_entities env nsp now segs s2 ctr1 with
      | (st, some m) => ⟨st.store, st.ctr, ev3 ++ st.events, .error m⟩
      | (st, none) => ⟨st.store, st.ctr, ev3 ++ st.events, .ok ⟨ir, segs, st.ents⟩⟩

/-- Model of `KOSPipeline._embed_segments`: collect the segments that have
no stored embedding yet, then store one vector for each (INSERT OR
REPLACE keyed by segment id). -/
def embed_segments (env : PipelineEnv) (model_name : String) (now : Nat)
    (segs : List ResourceSegment) (s : KnowledgeStore) :
    KnowledgeStore × List StoreEvent :=
  let to_embed := segs.filter (fun seg => (getEmbedding s seg.id).isNone)
  (to_embed.foldl (fun acc seg =>
     addEmbedding now seg.id model_name (env.embed seg.text) acc) s,
   to_embed.map (fun _ => .embeddingWrite))

/-- Output of the `ingest_file` model. -/
structure PipeOut where
  store : KnowledgeStore
  ctr : Nat
  events : List StoreEvent
  result : Except String Nat

/-- Model of `KOSPipeline.ingest_file` on the plain-text branch (the file
exists and has the .txt extension; its text is `content`): run
`ingest_text`, embed the new segments, return the segment count. -/
def ingest_file (env : PipelineEnv) (model_name : String)
    (content nsp source_uri : String) (metadata : List (String × String))
    (now : Nat) (s : KnowledgeStore) (ctr : Nat) : PipeOut :=
  let o := ingest_text env content nsp source_uri metadata now s ctr
  match o.result with
  | .error m => ⟨o.store, o.ctr, o.events, .error m⟩
  | .ok r =>
    if r.segments.isEmpty then ⟨o.store, o.ctr, o.events, .ok r.segments.length⟩
    else
      let e := embed_segments env model_name now r.segments o.store
      ⟨e.1, o.ctr, o.events ++ e.2, .ok r.segments.length⟩

/-! ## ExactRecall (search/exact_recall.py) -/

/-- One result dictionary of
`ExactRecall.get_all_segments_for_entity`. -/
structure RecallResult where
  segment_id : String
  text : String
  provenance : Provenance
  source_uri : Option String
  nsp : Option String
  link_type : String
  confidence : ℚ
deriving DecidableEq

/-- The per-pair enrichment of `get_all_segments_for_entity`: attach the
owning IR source_uri and namespace (None when the IR is missing). -/
def enrichPair (s : KnowledgeStore) (p : ResourceSegment × EntityLink) :
    RecallResult :=
  let ir := getIRById s p.1.ir_id
  { segment_id := p.1.id, text := p.1.text, provenance := p.1.provenance,
    source_uri := ir.map (fun i => i.source_uri), nsp := ir.map (fun i => i.nsp),
    link_type := p.2.link_type, confidence := p.2.confidence }

/-- Model of `ExactRecall.get_all_segments_for_entity`: every (segment,
link) pair of the store primitive, enriched with the owning IR metadata. -/
def get_all_segments_for_entity (s : KnowledgeStore) (entity_id : String) :
    List RecallResult :=
  (getSegmentsForEntity s entity_id).map (enrichPair s)

/-! ## Embedding search (KnowledgeStore.search_by_embedding)

Stored vectors are rational lists; scores live in ℝ because the cosine
denominator is a square root.  An IEEE division with zero divisor yields a
non-finite float (NaN for 0/0, ±infinity otherwise) — the model marks every
such score with `none`; the computation never raises. -/

/-- Model of `np.dot` on equal-length vectors. -/
def npDot (q v : List ℚ) : ℚ := ((q.zip v).map (fun p => p.1 * p.2)).sum

/-- Sum of squares of the entries; `np.linalg.norm v` is its square
root. -/
def normSq (v : List ℚ) : ℚ := (v.map (fun x => x * x)).sum

/-- Model of `np.linalg.norm`. -/
noncomputable def npNorm (v : List ℚ) : ℝ := Real.sqrt (normSq v)

/-- The per-candidate score `dot / (norm(query) * norm(v))` of
`search_by_embedding`.  The guard `normSq q * normSq v = 0` holds exactly
when the real denominator `npNorm q * npNorm v` is zero (proved below), in
which case the float division produces a non-finite value, modelled
`none`. -/
noncomputable def cosineSimilarity (q v : List ℚ) : Option ℝ :=
  if normSq q * normSq v = 0 then none
  else some ((npDot q v : ℝ) / (npNorm q * npNorm v))

/-- One row of the embeddings × segments × information_resources join of
`search_by_embedding`. -/
structure EmbJoinRow where
  segment_id : String
  vector : List ℚ
  text : String
  provenance : Provenance
  source_uri : String
  nsp : String
deriving DecidableEq

/-- The join fetched by `search_by_embedding`, optionally namespace
filtered (both id columns joined on are primary keys, so each embedding row
yields at most one join row). -/
def embJoinRows (s : KnowledgeStore) (nsp : Option String) : List EmbJoinRow :=
  s.embeddings.filterMap (fun e =>
    (getSegmentById s e.segment_id).bind (fun seg =>
      (getIRById s seg.ir_id).bind (fun ir =>
        if (match nsp with | some n => ir.nsp == n | none => true) then
          some ⟨e.segment_id, e.vector, seg.text, seg.provenance, ir.source_uri, ir.nsp⟩
        else none)))

/-- One scored result dictionary of `search_by_embedding` (before the
descending sort and top-k truncation, which only reorder and drop
entries and change no score). -/
structure SearchRow where
  segment_id : String
  text : String
  provenance : Provenance
  source_uri : String
  nsp : String
  score : Option ℝ

/-- The similarity-scoring stage of `search_by_embedding`: every join row
becomes a result carrying its cosine score against the query. -/
noncomputable def scoredCandidates (s : KnowledgeStore) (query : List ℚ)
    (nsp : Option String) : List SearchRow :=
  (embJoinRows s nsp).map (fun r =>
    { segment_id := r.segment_id, text := r.text, provenance := r.provenance,
      source_uri := r.source_uri, nsp := r.nsp,
      score := cosineSimilarity query r.vector })

/-! ## Concrete fixtures used by counterexamples and witnesses -/

/-- An empty knowledge store. -/
def emptyStore : KnowledgeStore := ⟨[], [], [], [], []⟩

/-- Store fixture for the embedding-search claim: one information resource
in namespace "n", one segment, one stored unit vector. -/
def zeroNormStore : KnowledgeStore :=
  ⟨[⟨"ir1", "n", "txt", "file:///v.txt", "h", [], 0, 0⟩],
   [⟨"s1", "ir1", 0, "some segment text", .plain 0 1, "th", 0⟩],
   [], [],
   [⟨"s1", "m", [1], 0⟩]⟩

/-- Store fixture for the entity-upsert claim: one entity named X of type
strain in namespace "n" carrying the alias "x". -/
def aliasStore : KnowledgeStore :=
  ⟨[], [], [⟨"e1", "n", "strain", "X", ["x"], [], 0, 0⟩], [], []⟩

/-- Incoming entity for the upsert fixture: same (namespace, type, name),
alias list ["y"]. -/
def aliasIncoming : Entity := ⟨"e2", "n", "strain", "X", ["y"], [], 5, 5⟩

/-! ## Theorems -/

/-- C3: for all inputs, `generate_segment_id(namespace, source_uri,
provenance_key, text)` equals the hex-encoded SHA-256 of the pipe-joined
string namespace|source_uri|provenance_key|normalize(text); being a Lean
function of exactly these four arguments, it is pure, so identical inputs
yield the identical id on every invocation. -/
theorem C3_segment_id_is_sha256_of_pipe_join
    (nsp source_uri provenance_key text : String) :
    generate_segment_id nsp source_uri provenance_key text =
      sha256Hex (utf8Encode
        (nsp ++ "|" ++ source_uri ++ "|" ++ provenance_key ++ "|" ++ normalize_text text)) :=
  rfl

/-- C9: constructing an `EntityLink` or an `ExtractedEntity` succeeds
exactly when the confidence lies in the closed interval [0, 1]; a value
strictly below 0 or strictly above 1 always yields the validation error. -/
theorem C9_confidence_bound_validation (c : ℚ) (sid eid lt ty nm : String)
    (al : List String) (md : List (String × String)) (now : Nat) :
    ((mkEntityLink sid eid lt c now).isOk = true ↔ (0 ≤ c ∧ c ≤ 1)) ∧
    ((mkExtractedEntity ty nm al c md).isOk = true ↔ (0 ≤ c ∧ c ≤ 1)) := by
  constructor
  · unfold mkEntityLink
    split <;> rename_i h <;> simp_all [Except.isOk, Except.toBool]
  · unfold mkExtractedEntity
    split <;> rename_i h <;> simp_all [Except.isOk, Except.toBool]

/-- The sum of squares of the entries of a vector is nonnegative. -/
lemma normSq_nonneg (v : List ℚ) : 0 ≤ normSq v := by
  refine List.sum_nonneg ?_
  intro x hx
  obtain ⟨y, _, rfl⟩ := List.mem_map.mp hx
  exact mul_self_nonneg y

/-- The numpy norm of a vector vanishes exactly when its sum of squares
does. -/
lemma npNorm_eq_zero_iff (v : List ℚ) : npNorm v = 0 ↔ normSq v = 0 := by
  unfold npNorm
  rw [Real.sqrt_eq_zero (by exact_mod_cast normSq_nonneg v)]
  exact_mod_cast Iff.rfl

/-- The real denominator of the cosine score vanishes exactly when the
rational guard of `cosineSimilarity` holds. -/
lemma cosine_denominator_zero_iff (q v : List ℚ) :
    npNorm q * npNorm v = 0 ↔ normSq q * normSq v = 0 := by
  rw [mul_eq_zero, mul_eq_zero, npNorm_eq_zero_iff, npNorm_eq_zero_iff]

/-- C5 (amended): every candidate of the scoring stage of
`search_by_embedding` carries the score `dot(query, v) / (norm(query) *
norm(v))` whenever both norms are nonzero; whenever either norm is zero the
float division yields a non-finite value (NaN or ±infinity, modelled
`none`), not the similarity 0 that the specification prescribes; no
exception is raised either way (the model is total). -/
theorem C5_cosine_scoring_with_zero_norm_marker (s : KnowledgeStore)
    (query : List ℚ) (nsp : Option String) :
    scoredCandidates s query nsp = (embJoinRows s nsp).map (fun r =>
      { segment_id := r.segment_id, text := r.text, provenance := r.provenance,
        source_uri := r.source_uri, nsp := r.nsp,
        score := cosineSimilarity query r.vector }) ∧
    (∀ v, npNorm query = 0 ∨ npNorm v = 0 → cosineSimilarity query v = none) ∧
    (∀ v, npNorm query ≠ 0 → npNorm v ≠ 0 →
      cosineSimilarity query v =
        some ((npDot query v : ℝ) / (npNorm query * npNorm v))) := by
  refine ⟨rfl, ?_, ?_⟩
  · intro v h
    unfold cosineSimilarity
    rw [if_pos]
    rcases h with h | h
    · exact mul_eq_zero_of_left ((npNorm_eq_zero_iff query).mp h) _
    · exact mul_eq_zero_of_right _ ((npNorm_eq_zero_iff v).mp h)
  · intro v hq hv
    unfold cosineSimilarity
    rw [if_neg]
    intro h
    rcases mul_eq_zero.mp h with h | h
    · exact hq ((npNorm_eq_zero_iff query).mpr h)
    · exact hv ((npNorm_eq_zero_iff v).mpr h)

/-- Witness for C5 (amended), at the query vector [0] against the stored
vector [1]: the score is the non-finite marker. -/
theorem C5_witness : cosineSimilarity [(0 : ℚ)] [(1 : ℚ)] = none :=
  (C5_cosine_scoring_with_zero_norm_marker emptyStore [(0 : ℚ)] none).2.1
    [(1 : ℚ)]
    (Or.inl (by simp [npNorm, normSq]))

/-- Counterexample to C5 as stated: in a store holding one embedded
segment with vector [1], a query of zero norm produces the non-finite
score marker, not the similarity 0 that the claim prescribes. -/
theorem C5_counterexample :
    (scoredCandidates zeroNormStore [(0 : ℚ)] (some "n")).map (fun r => r.score) =
      [none] ∧ (none : Option ℝ) ≠ some 0 := by
  constructor
  · unfold scoredCandidates
    rw [show embJoinRows zeroNormStore (some "n") =
      [⟨"s1", [1], "some segment text", .plain 0 1, "file:///v.txt", "n"⟩] from rfl]
    simp only [List.map_cons, List.map_nil]
    rw [show cosineSimilarity [(0:ℚ)] [(1:ℚ)] = none from by
      unfold cosineSimilarity; rw [if_pos (by simp [normSq])]]
  · simp

/-- C2: the exact-recall store primitive returns exactly one pair per
(segment, link) join row for the entity — a permutation of the filtered
join, so no linked segment is omitted and none is duplicated — sorted
ascending by segment creation time, and `get_all_segments_for_entity`
returns exactly these pairs enriched with the owning IR source_uri and
namespace. -/
theorem C2_exact_recall_complete_ordered_enriched (s : KnowledgeStore)
    (entity_id : String) :
    (getSegmentsForEntity s entity_id).Perm
      ((s.segment_entity_links.filter (fun l => l.entity_id == entity_id)).filterMap
        (fun l => (getSegmentById s l.segment_id).map (fun seg => (seg, l)))) ∧
    List.Pairwise (fun a b => a.1.created_at ≤ b.1.created_at)
      (getSegmentsForEntity s entity_id) ∧
    get_all_segments_for_entity s entity_id =
      (getSegmentsForEntity s entity_id).map (enrichPair s) := by
  refine ⟨List.mergeSort_perm _ _, ?_, rfl⟩
  have h := @List.sorted_mergeSort (ResourceSegment × EntityLink)
    (fun a b => Nat.ble a.1.created_at b.1.created_at)
    (by intro a b c hab hbc
        simp only [Nat.ble_eq] at hab hbc ⊢
        exact le_trans hab hbc)
    (by intro a b
        simp only [Bool.or_eq_true, Nat.ble_eq]
        exact Nat.le_total _ _)
    ((s.segment_entity_links.filter (fun l => l.entity_id == entity_id)).filterMap
      (fun l => (getSegmentById s l.segment_id).map (fun seg => (seg, l))))
  exact h.imp (fun hab => by simpa [Nat.ble_eq] using hab)

/-- Defining equation of the split worker on the empty list. -/
lemma pySplitAux_nil (acc : List Char) :
    pySplitAux [] acc = if acc.isEmpty then [] else [acc.reverse] := rfl

/-- Defining equation of the split worker on a cons. -/
lemma pySplitAux_cons (c : Char) (cs acc : List Char) :
    pySplitAux (c :: cs) acc =
      if isPyWs c then
        if acc.isEmpty then pySplitAux cs [] else acc.reverse :: pySplitAux cs []
      else pySplitAux cs (c :: acc) := rfl

/-- Every word produced by the split worker is nonempty and free of
whitespace, provided the accumulator is whitespace-free. -/
lemma pySplitAux_good : ∀ (l acc : List Char), (∀ c ∈ acc, isPyWs c = false) →
    ∀ w ∈ pySplitAux l acc, w ≠ [] ∧ ∀ c ∈ w, isPyWs c = false := by
  intro l
  induction l with
  | nil =>
    intro acc hacc w hw
    unfold pySplitAux at hw
    by_cases h : acc.isEmpty
    · simp [h] at hw
    · rw [if_neg h] at hw
      rcases List.mem_singleton.mp hw with rfl
      refine ⟨?_, fun c hc => hacc c (List.mem_reverse.mp hc)⟩
      intro hrev
      rw [List.reverse_eq_nil_iff] at hrev
      subst hrev
      simp at h
  | cons c cs ih =>
    intro acc hacc w hw
    unfold pySplitAux at hw
    by_cases hcw : isPyWs c
    · rw [if_pos hcw] at hw
      by_cases hae : acc.isEmpty
      · rw [if_pos hae] at hw
        exact ih [] (by simp) w hw
      · rw [if_neg hae] at hw
        rcases List.mem_cons.mp hw with rfl | hw
        · refine ⟨?_, fun x hx => hacc x (List.mem_reverse.mp hx)⟩
          intro hrev
          rw [List.reverse_eq_nil_iff] at hrev
          subst hrev
          simp at hae
        · exact ih [] (by simp) w hw
    · rw [if_neg hcw] at hw
      refine ih (c :: acc) ?_ w hw
      intro x hx
      rcases List.mem_cons.mp hx with rfl | hx
      · exact eq_false_of_ne_true hcw
      · exact hacc x hx

/-- Splitting an all-whitespace list emits at most the pending word. -/
lemma pySplitAux_allws : ∀ (t acc : List Char), (∀ c ∈ t, isPyWs c = true) →
    pySplitAux t acc = if acc.isEmpty then [] else [acc.reverse] := by
  intro t
  induction t with
  | nil => intro acc _; rfl
  | cons c cs ih =>
    intro acc hws
    unfold pySplitAux
    rw [if_pos (hws c (by simp))]
    by_cases hae : acc.isEmpty
    · rw [if_pos hae, if_pos hae, ih [] (fun x hx => hws x (by simp [hx])) ]
      rfl
    · rw [if_neg hae, if_neg hae, ih [] (fun x hx => hws x (by simp [hx]))]
      rfl

/-- Appending trailing whitespace does not change the split. -/
lemma pySplitAux_append_ws : ∀ (l t acc : List Char), (∀ c ∈ t, isPyWs c = true) →
    pySplitAux (l ++ t) acc = pySplitAux l acc := by
  intro l
  induction l with
  | nil =>
    intro t acc hws
    rw [List.nil_append, pySplitAux_allws t acc hws]
    rfl
  | cons c cs ih =>
    intro t acc hws
    show pySplitAux (c :: (cs ++ t)) acc = pySplitAux (c :: cs) acc
    unfold pySplitAux
    by_cases hcw : isPyWs c
    · rw [if_pos hcw, if_pos hcw]
      by_cases hae : acc.isEmpty
      · rw [if_pos hae, if_pos hae, ih t [] hws]
      · rw [if_neg hae, if_neg hae, ih t [] hws]
    · rw [if_neg hcw, if_neg hcw, ih t (c :: acc) hws]

/-- Dropping leading whitespace does not change the split. -/
lemma pySplitAux_dropWhile : ∀ l : List Char,
    pySplitAux (l.dropWhile isPyWs) [] = pySplitAux l [] := by
  intro l
  induction l with
  | nil => rfl
  | cons c cs ih =>
    by_cases hcw : isPyWs c
    · rw [List.dropWhile_cons_of_pos hcw, ih, pySplitAux_cons, if_pos hcw]
      simp
    · rw [List.dropWhile_cons_of_neg (by simp [hcw])]

/-- Python `text.strip()` does not change `text.split()`. -/
lemma pySplit_pyStrip (l : List Char) : pySplit (pyStrip l) = pySplit l := by
  unfold pySplit
  have h1 : pySplitAux l [] = pySplitAux (l.dropWhile isPyWs) [] :=
    (pySplitAux_dropWhile l).symm
  have hdecomp : l.dropWhile isPyWs =
      pyStrip l ++ (List.takeWhile isPyWs (l.dropWhile isPyWs).reverse).reverse := by
    unfold pyStrip
    conv_lhs => rw [← List.reverse_reverse (l.dropWhile isPyWs),
      ← List.takeWhile_append_dropWhile isPyWs (l.dropWhile isPyWs).reverse]
    rw [List.reverse_append]
  rw [h1, hdecomp,
    pySplitAux_append_ws _ _ []
      (fun c hc => List.mem_takeWhile_imp (List.mem_reverse.mp hc))]

/-- Consuming a whitespace-free word pushes it (reversed) onto the
accumulator. -/
lemma pySplitAux_word : ∀ (w l acc : List Char), (∀ c ∈ w, isPyWs c = false) →
    pySplitAux (w ++ l) acc = pySplitAux l (w.reverse ++ acc) := by
  intro w
  induction w with
  | nil => intro l acc _; rfl
  | cons c cs ih =>
    intro l acc hwf
    show pySplitAux (c :: (cs ++ l)) acc = _
    rw [pySplitAux_cons,
      if_neg (by rw [hwf c (by simp)]; exact Bool.false_ne_true),
      ih l (c :: acc) (fun x hx => hwf x (by simp [hx]))]
    simp

/-- Splitting a space-joined list of nonempty whitespace-free words
recovers the words. -/
lemma pySplit_joinSp : ∀ ws : List (List Char),
    (∀ w ∈ ws, w ≠ [] ∧ ∀ c ∈ w, isPyWs c = false) →
    pySplit (joinSp ws) = ws := by
  intro ws
  induction ws with
  | nil => intro _; rfl
  | cons w rest ih =>
    intro hgood
    have hw := hgood w (by simp)
    cases rest with
    | nil =>
      show pySplitAux (joinSp [w]) [] = [w]
      have hjw : joinSp [w] = w ++ [] := by
        show w = w ++ []
        rw [List.append_nil]
      rw [hjw, pySplitAux_word w [] [] hw.2, pySplitAux_nil,
        if_neg (by simpa using hw.1)]
      simp
    | cons w' rest' =>
      show pySplitAux (w ++ ' ' :: joinSp (w' :: rest')) [] = w :: w' :: rest'
      rw [pySplitAux_word w _ [] hw.2, pySplitAux_cons,
        if_pos (by decide), if_neg (by simpa using hw.1)]
      simp only [List.append_nil, List.reverse_reverse]
      congr 1
      exact ih (fun x hx => hgood x (by simp [hx]))

/-- Every word of a Python split is nonempty and whitespace-free. -/
lemma pySplit_good (l : List Char) :
    ∀ w ∈ pySplit l, w ≠ [] ∧ ∀ c ∈ w, isPyWs c = false :=
  pySplitAux_good l [] (by simp)

/-- Normalization is idempotent. -/
lemma normalize_text_idem (s : String) :
    normalize_text (normalize_text s) = normalize_text s := by
  unfold normalize_text
  congr 1
  show joinSp (pySplit (pyStrip (joinSp (pySplit (pyStrip s.data))))) =
    joinSp (pySplit (pyStrip s.data))
  rw [pySplit_pyStrip, pySplit_joinSp _ (pySplit_good (pyStrip s.data))]

/-- C10: normalization is idempotent, and both hashing functions are
insensitive to whitespace differences — any two strings with the same
whitespace-normalized form receive the same text hash and (for equal
namespace, source_uri, and provenance key) the same segment id. -/
theorem C10_normalize_idem_and_hash_ws_insensitive (t a b : String)
    (h : normalize_text a = normalize_text b) :
    normalize_text (normalize_text t) = normalize_text t ∧
    generate_text_hash a = generate_text_hash b ∧
    (∀ nsp uri key, generate_segment_id nsp uri key a =
      generate_segment_id nsp uri key b) := by
  refine ⟨normalize_text_idem t, ?_, ?_⟩
  · unfold generate_text_hash
    rw [h]
  · intro nsp uri key
    unfold generate_segment_id
    rw [h]

/-- Witness for C10 at the pair " p  q " / "p q" (equal normalized forms)
and the string "x". -/
theorem C10_witness :
    normalize_text " p  q " = normalize_text "p q" ∧
    (normalize_text (normalize_text "x") = normalize_text "x" ∧
     generate_text_hash " p  q " = generate_text_hash "p q" ∧
     (∀ nsp uri key, generate_segment_id nsp uri key " p  q " =
       generate_segment_id nsp uri key "p q")) :=
  ⟨by decide, C10_normalize_idem_and_hash_ws_insensitive "x" " p  q " "p q" (by decide)⟩

/-- C7 (amended): when an entity with the same (namespace, type, name)
exists, `upsert_entity` keeps the table length, leaves every row with a
different id untouched, and rewrites each row carrying the existing id so
that its aliases and metadata become exactly the incoming values (not a
union merge) with updated_at bumped to now — id, created_at, namespace,
type, and name of the row are preserved by construction of the rewrite;
the returned record carries the existing id and created_at.  When no such
entity exists, the incoming record is appended unchanged. -/
theorem C7_upsert_entity_replaces_and_preserves (now : Nat) (e : Entity)
    (s : KnowledgeStore) :
    (∀ ex, getEntityByName s e.nsp e.type e.name = some ex →
      ((upsertEntity now e s).1.id = ex.id ∧
       (upsertEntity now e s).1.created_at = ex.created_at ∧
       (upsertEntity now e s).1.updated_at = now) ∧
      (upsertEntity now e s).2.entities.length = s.entities.length ∧
      (∀ r ∈ s.entities, r.id ≠ ex.id → r ∈ (upsertEntity now e s).2.entities) ∧
      (∀ r ∈ s.entities, r.id = ex.id →
        { r with aliases := e.aliases, metadata := e.metadata, updated_at := now } ∈
          (upsertEntity now e s).2.entities)) ∧
    (getEntityByName s e.nsp e.type e.name = none →
      upsertEntity now e s = (e, { s with entities := s.entities ++ [e] })) := by
  constructor
  · intro ex hex
    unfold upsertEntity
    rw [hex]
    refine ⟨⟨rfl, rfl, rfl⟩, List.length_map _ _, ?_, ?_⟩
    · intro r hr hne
      have : (fun r : Entity =>
          if r.id == ex.id then
            { r with aliases := e.aliases, metadata := e.metadata, updated_at := now }
          else r) r = r := by
        simp [hne]
      exact this ▸ List.mem_map_of_mem _ hr
    · intro r hr heq
      have : (fun r : Entity =>
          if r.id == ex.id then
            { r with aliases := e.aliases, metadata := e.metadata, updated_at := now }
          else r) r =
          { r with aliases := e.aliases, metadata := e.metadata, updated_at := now } := by
        simp [heq]
      exact this ▸ List.mem_map_of_mem _ hr
  · intro hnone
    unfold upsertEntity
    rw [hnone]

/-- Counterexample to C7 as stated: upserting an entity whose existing
record carries the alias "x" with an incoming record carrying the alias
"y" leaves the table with aliases ["y"] alone — the existing alias "x" is
discarded, so the incoming aliases are not merged into the existing
record but replace its alias list. -/
theorem C7_counterexample :
    ((upsertEntity 5 aliasIncoming aliasStore).2.entities.map (fun r => r.aliases)) =
      [["y"]] ∧
    "x" ∉ ((upsertEntity 5 aliasIncoming aliasStore).2.entities.map
      (fun r => r.aliases)).flatten := by
  decide

/-- Witness for C7 (amended) at the alias fixture: the lookup finds the
existing record e1, and the upsert preserves its id and the table
length. -/
theorem C7_witness :
    (upsertEntity 5 aliasIncoming aliasStore).1.id = "e1" ∧
    (upsertEntity 5 aliasIncoming aliasStore).2.entities.length = 1 := by
  have h := (C7_upsert_entity_replaces_and_preserves 5 aliasIncoming aliasStore).1
    ⟨"e1", "n", "strain", "X", ["x"], [], 0, 0⟩ (by decide)
  exact ⟨h.1.1, h.2.1⟩

/-- The emission loop keeps the segment indices forming a contiguous
ascending range, provided the maker stamps each new segment with `base`
plus the running position. -/
lemma segEmitLoop_indices (n base : Nat)
    (mk : Nat → List String → Nat → ResourceSegment)
    (hmk : ∀ i b k, (mk i b k).segment_index = base + k)
    (sents : List String) (acc : List ResourceSegment)
    (hacc : acc.map (fun r => r.segment_index) = List.range' base acc.length) :
    (segEmitLoop n mk sents acc).map (fun r => r.segment_index) =
      List.range' base (segEmitLoop n mk sents acc).length := by
  unfold segEmitLoop
  generalize batches n sents = bs
  induction bs generalizing acc with
  | nil => simpa using hacc
  | cons b bs ih =>
    simp only [List.foldl_cons]
    by_cases he : (pyStrip (joinSp (b.2.map String.data))).isEmpty
    · rw [if_pos he]
      exact ih acc hacc
    · rw [if_neg he]
      refine ih _ ?_
      rw [List.map_append, hacc, List.map_cons, List.map_nil, hmk]
      simp [List.range'_concat]

/-- Plain-text segmentation emits indices 0, 1, 2, ... -/
lemma segment_text_indices (n : Nat) (text ir_id nsp uri : String) (now : Nat) :
    (segment_text n text ir_id nsp uri now).map (fun r => r.segment_index) =
      List.range' 0 (segment_text n text ir_id nsp uri now).length := by
  unfold segment_text
  exact segEmitLoop_indices n 0 _ (fun i b k => by simp) _ [] (by simp)

/-- Page segmentation emits indices 0, 1, 2, ... across the whole page
list. -/
lemma segment_pages_indices (n : Nat) (pages : List (Nat × String))
    (ir_id nsp uri : String) (now : Nat) :
    (segment_pages n pages ir_id nsp uri now).map (fun r => r.segment_index) =
      List.range' 0 (segment_pages n pages ir_id nsp uri now).length := by
  unfold segment_pages
  have main : ∀ (ps : List (Nat × String)) (acc : List ResourceSegment),
      acc.map (fun r => r.segment_index) = List.range' 0 acc.length →
      (ps.foldl (fun acc page =>
        segEmitLoop n (fun sent_idx batch pos =>
          { id := generate_segment_id nsp uri
              (toString page.1 ++ ":" ++ toString sent_idx)
              (⟨joinSp (batch.map String.data)⟩ : String),
            ir_id := ir_id, segment_index := pos,
            text := (⟨joinSp (batch.map String.data)⟩ : String),
            provenance := .page page.1 sent_idx batch.length,
            text_hash := generate_text_hash (⟨joinSp (batch.map String.data)⟩ : String),
            created_at := now })
          (split_sentences page.2) acc) acc).map (fun r => r.segment_index) =
      List.range' 0 (ps.foldl (fun acc page =>
        segEmitLoop n (fun sent_idx batch pos =>
          { id := generate_segment_id nsp uri
              (toString page.1 ++ ":" ++ toString sent_idx)
              (⟨joinSp (batch.map String.data)⟩ : String),
            ir_id := ir_id, segment_index := pos,
            text := (⟨joinSp (batch.map String.data)⟩ : String),
            provenance := .page page.1 sent_idx batch.length,
            text_hash := generate_text_hash (⟨joinSp (batch.map String.data)⟩ : String),
            created_at := now })
          (split_sentences page.2) acc) acc).length := by
    intro ps
    induction ps with
    | nil => intro acc hacc; simpa using hacc
    | cons p ps ih =>
      intro acc hacc
      rw [List.foldl_cons]
      exact ih _ (segEmitLoop_indices n 0 _ (fun i b k => by simp) _ acc hacc)
  exact main pages [] (by simp)

/-- Paragraph segmentation emits the contiguous index range starting at
`start_index`. -/
lemma segment_paragraph_indices (n : Nat) (para : List String)
    (heading : String) (pidx : Nat) (ir_id nsp uri : String) (start now : Nat) :
    (segment_paragraph n para heading pidx ir_id nsp uri start now).map
        (fun r => r.segment_index) =
      List.range' start
        (segment_paragraph n para heading pidx ir_id nsp uri start now).length := by
  unfold segment_paragraph
  exact segEmitLoop_indices n start _ (fun i b k => by simp) _ [] (by simp)

/-- One markdown line preserves strict monotonicity of the emitted indices
together with the bound by the running global index. -/
lemma mdLine_inv (n : Nat) (ir_id nsp uri : String) (now : Nat)
    (st : MdState) (line : String)
    (h1 : List.Pairwise (· < ·) (st.segs.map (fun r => r.segment_index)))
    (h2 : ∀ i ∈ st.segs.map (fun r => r.segment_index), i < st.global_index) :
    List.Pairwise (· < ·)
      ((mdLine n ir_id nsp uri now st line).segs.map (fun r => r.segment_index)) ∧
    ∀ i ∈ (mdLine n ir_id nsp uri now st line).segs.map (fun r => r.segment_index),
      i < (mdLine n ir_id nsp uri now st line).global_index := by
  unfold mdLine
  by_cases hh : (match line.data with | '#' :: _ => true | _ => false)
  · rw [if_pos hh]
    by_cases hp : st.para.isEmpty
    · rw [if_pos hp]
      exact ⟨h1, h2⟩
    · rw [if_neg hp]
      dsimp only
      constructor
      · rw [List.map_append, segment_paragraph_indices, List.pairwise_append]
        refine ⟨h1, List.pairwise_lt_range' _ _, ?_⟩
        intro a ha b hb
        obtain ⟨i, _, rfl⟩ := List.mem_range'.mp hb
        have := h2 a ha
        omega
      · intro i hi
        rw [List.map_append, segment_paragraph_indices] at hi
        rw [List.length_append]
        rcases List.mem_append.mp hi with hi | hi
        · have := h2 i hi
          omega
        · obtain ⟨j, hj, rfl⟩ := List.mem_range'.mp hi
          have hlen : (segment_paragraph n st.para st.heading st.para_index
              ir_id nsp uri st.global_index now).length =
              (List.range' st.global_index (segment_paragraph n st.para st.heading
                st.para_index ir_id nsp uri st.global_index now).length).length := by
            simp
          omega
  · rw [if_neg hh]
    split
    · exact ⟨h1, h2⟩
    · exact ⟨h1, h2⟩

/-- C8: in all three segmentation formats — page-based, markdown
heading-based, and plain text — the emitted `segment_index` values are
strictly increasing across the whole information resource, so sorting by
ascending segment_index reconstructs document order. -/
theorem C8_segment_index_strictly_increasing (n : Nat)
    (pages : List (Nat × String)) (mdtext txt : String)
    (ir_id nsp uri : String) (now : Nat) :
    List.Pairwise (· < ·)
      ((segment_pages n pages ir_id nsp uri now).map (fun r => r.segment_index)) ∧
    List.Pairwise (· < ·)
      ((segment_markdown n mdtext ir_id nsp uri now).map (fun r => r.segment_index)) ∧
    List.Pairwise (· < ·)
      ((segment_text n txt ir_id nsp uri now).map (fun r => r.segment_index)) := by
  refine ⟨?_, ?_, ?_⟩
  · rw [segment_pages_indices]
    exact List.pairwise_lt_range' _ _
  · unfold segment_markdown
    have main : ∀ (ls : List String) (st : MdState),
        List.Pairwise (· < ·) (st.segs.map (fun r => r.segment_index)) →
        (∀ i ∈ st.segs.map (fun r => r.segment_index), i < st.global_index) →
        List.Pairwise (· < ·)
          ((ls.foldl (mdLine n ir_id nsp uri now) st).segs.map
            (fun r => r.segment_index)) ∧
        ∀ i ∈ (ls.foldl (mdLine n ir_id nsp uri now) st).segs.map
            (fun r => r.segment_index),
          i < (ls.foldl (mdLine n ir_id nsp uri now) st).global_index := by
      intro ls
      induction ls with
      | nil => intro st h1 h2; exact ⟨h1, h2⟩
      | cons l ls ih =>
        intro st h1 h2
        rw [List.foldl_cons]
        have step := mdLine_inv n ir_id nsp uri now st l h1 h2
        exact ih _ step.1 step.2
    obtain ⟨h1, h2⟩ := main _ ⟨"root", [], 0, [], 0⟩ (by simp) (by simp)
    dsimp only
    split
    · exact h1
    · rw [List.map_append, segment_paragraph_indices, List.pairwise_append]
      refine ⟨h1, List.pairwise_lt_range' _ _, ?_⟩
      intro a ha b hb
      obtain ⟨i, _, rfl⟩ := List.mem_range'.mp hb
      have := h2 a ha
      omega
  · rw [segment_text_indices]
    exact List.pairwise_lt_range' _ _

/-! ## Frame lemmas: each store operation touches exactly one table. -/

/-- Upserting an information resource leaves the other four tables
unchanged. -/
lemma upsertInformationResource_frame (now : Nat) (ir : InformationResource)
    (s : KnowledgeStore) :
    ((upsertInformationResource now ir s).2).resource_segments = s.resource_segments ∧
    ((upsertInformationResource now ir s).2).entities = s.entities ∧
    ((upsertInformationResource now ir s).2).segment_entity_links = s.segment_entity_links ∧
    ((upsertInformationResource now ir s).2).embeddings = s.embeddings := by
  unfold upsertInformationResource
  cases getIRByUri s ir.nsp ir.source_uri <;> exact ⟨rfl, rfl, rfl, rfl⟩

/-- Upserting a segment leaves the other four tables unchanged. -/
lemma upsertSegment_frame (seg : ResourceSegment) (s : KnowledgeStore) :
    ((upsertSegment seg s).2).information_resources = s.information_resources ∧
    ((upsertSegment seg s).2).entities = s.entities ∧
    ((upsertSegment seg s).2).segment_entity_links = s.segment_entity_links ∧
    ((upsertSegment seg s).2).embeddings = s.embeddings := by
  unfold upsertSegment
  cases getSegmentById s seg.id <;> exact ⟨rfl, rfl, rfl, rfl⟩

/-- Bulk segment upsert leaves the other four tables unchanged. -/
lemma bulkUpsertSegments_frame (segs : List ResourceSegment) (s : KnowledgeStore) :
    (bulkUpsertSegments segs s).information_resources = s.information_resources ∧
    (bulkUpsertSegments segs s).entities = s.entities ∧
    (bulkUpsertSegments segs s).segment_entity_links = s.segment_entity_links ∧
    (bulkUpsertSegments segs s).embeddings = s.embeddings := by
  induction segs generalizing s with
  | nil => exact ⟨rfl, rfl, rfl, rfl⟩
  | cons seg segs ih =>
    have h := upsertSegment_frame seg s
    have h2 := ih ((upsertSegment seg s).2)
    exact ⟨h2.1.trans h.1, h2.2.1.trans h.2.1, h2.2.2.1.trans h.2.2.1,
      h2.2.2.2.trans h.2.2.2⟩

/-- Upserting an entity leaves the other four tables unchanged. -/
lemma upsertEntity_frame (now : Nat) (e : Entity) (s : KnowledgeStore) :
    ((upsertEntity now e s).2).information_resources = s.information_resources ∧
    ((upsertEntity now e s).2).resource_segments = s.resource_segments ∧
    ((upsertEntity now e s).2).segment_entity_links = s.segment_entity_links ∧
    ((upsertEntity now e s).2).embeddings = s.embeddings := by
  unfold upsertEntity
  cases getEntityByName s e.nsp e.type e.name <;> exact ⟨rfl, rfl, rfl, rfl⟩

/-- Adding entity links leaves the other four tables unchanged. -/
lemma bulkAddEntityLinks_frame (links : List EntityLink) (s : KnowledgeStore) :
    (bulkAddEntityLinks links s).information_resources = s.information_resources ∧
    (bulkAddEntityLinks links s).resource_segments = s.resource_segments ∧
    (bulkAddEntityLinks links s).entities = s.entities ∧
    (bulkAddEntityLinks links s).embeddings = s.embeddings := by
  induction links generalizing s with
  | nil => exact ⟨rfl, rfl, rfl, rfl⟩
  | cons l ls ih => exact ih (addEntityLink l s)

/-- The entity-linking loops leave the resources, segments, and embeddings
tables unchanged. -/
lemma linkCandidates_frame (env : PipelineEnv) (nsp : String) (now : Nat)
    (segId : String) :
    ∀ (cands : List ExtractedEntity) (st : LinkState),
    ((linkCandidates env nsp now segId cands st).1.store).information_resources =
      st.store.information_resources ∧
    ((linkCandidates env nsp now segId cands st).1.store).resource_segments =
      st.store.resource_segments ∧
    ((linkCandidates env nsp now segId cands st).1.store).embeddings =
      st.store.embeddings := by
  intro cands
  induction cands with
  | nil => intro st; exact ⟨rfl, rfl, rfl⟩
  | cons c rest ih =>
    intro st
    unfold linkCandidates
    cases hfound : getEntityByName st.store nsp c.type c.name with
    | some e =>
      dsimp only
      cases hmk : mkEntityLink segId e.id "mentions" c.confidence now with
      | ok link => exact ih _
      | error m => exact ⟨rfl, rfl, rfl⟩
    | none =>
      dsimp only
      set st' : LinkState :=
        { st with
          store := (upsertEntity now
            { id := env.idGen st.ctr, nsp := nsp, type := c.type, name := c.name,
              aliases := c.aliases, metadata := c.metadata,
              created_at := now, updated_at := now } st.store).2
          ctr := st.ctr + 1
          ents := st.ents ++ [(upsertEntity now
            { id := env.idGen st.ctr, nsp := nsp, type := c.type, name := c.name,
              aliases := c.aliases, metadata := c.metadata,
              created_at := now, updated_at := now } st.store).1]
          events := st.events ++ [.entityWrite] } with hst'
      have hfr := upsertEntity_frame now
        { id := env.idGen st.ctr, nsp := nsp, type := c.type, name := c.name,
          aliases := c.aliases, metadata := c.metadata,
          created_at := now, updated_at := now } st.store
      cases hmk : mkEntityLink segId ((upsertEntity now
          { id := env.idGen st.ctr, nsp := nsp, type := c.type, name := c.name,
            aliases := c.aliases, metadata := c.metadata,
            created_at := now, updated_at := now } st.store).1).id
          "mentions" c.confidence now with
      | ok link =>
        have h := ih { st' with links := st'.links ++ [link] }
        refine ⟨h.1.trans ?_, h.2.1.trans ?_, h.2.2.trans ?_⟩
        · exact hfr.1
        · exact hfr.2.1
        · exact hfr.2.2.2
      | error m => exact ⟨hfr.1, hfr.2.1, hfr.2.2.2⟩

/-- The outer linking loop leaves resources, segments, and embeddings
unchanged. -/
lemma linkSegments_frame (env : PipelineEnv) (nsp : String) (now : Nat) :
    ∀ (segs : List ResourceSegment) (st : LinkState),
    ((linkSegments env nsp now segs st).1.store).information_resources =
      st.store.information_resources ∧
    ((linkSegments env nsp now segs st).1.store).resource_segments =
      st.store.resource_segments ∧
    ((linkSegments env nsp now segs st).1.store).embeddings =
      st.store.embeddings := by
  intro segs
  induction segs with
  | nil => intro st; exact ⟨rfl, rfl, rfl⟩
  | cons seg rest ih =>
    intro st
    unfold linkSegments
    have hc := linkCandidates_frame env nsp now seg.id (env.extract seg.text) st
    cases hlc : linkCandidates env nsp now seg.id (env.extract seg.text) st with
    | mk st' err =>
      rw [hlc] at hc
      cases err with
      | none =>
        have h := ih st'
        exact ⟨h.1.trans hc.1, h.2.1.trans hc.2.1, h.2.2.trans hc.2.2⟩
      | some m => exact hc

/-- Entity extraction and linking leaves resources, segments, and
embeddings unchanged. -/
lemma extract_and_link_entities_frame (env : PipelineEnv) (nsp : String)
    (now : Nat) (segs : List ResourceSegment) (s : KnowledgeStore) (ctr : Nat) :
    ((extract_and_link_entities env nsp now segs s ctr).1.store).information_resources =
      s.information_resources ∧
    ((extract_and_link_entities env nsp now segs s ctr).1.store).resource_segments =
      s.resource_segments ∧
    ((extract_and_link_entities env nsp now segs s ctr).1.store).embeddings =
      s.embeddings := by
  unfold extract_and_link_entities
  have h := linkSegments_frame env nsp now segs ⟨s, ctr, [], [], []⟩
  cases hls : linkSegments env nsp now segs ⟨s, ctr, [], [], []⟩ with
  | mk st err =>
    rw [hls] at h
    cases err with
    | some m => exact h
    | none =>
      have hb := bulkAddEntityLinks_frame st.links st.store
      exact ⟨hb.1.trans h.1, hb.2.1.trans h.2.1, hb.2.2.2.trans h.2.2⟩

/-- Adding an embedding leaves the other four tables unchanged. -/
lemma addEmbedding_frame (now : Nat) (sid model : String) (v : List ℚ)
    (s : KnowledgeStore) :
    (addEmbedding now sid model v s).information_resources = s.information_resources ∧
    (addEmbedding now sid model v s).resource_segments = s.resource_segments ∧
    (addEmbedding now sid model v s).entities = s.entities ∧
    (addEmbedding now sid model v s).segment_entity_links = s.segment_entity_links :=
  ⟨rfl, rfl, rfl, rfl⟩

/-- The embedding stage leaves the other four tables unchanged. -/
lemma embed_segments_frame (env : PipelineEnv) (model : String) (now : Nat)
    (segs : List ResourceSegment) (s : KnowledgeStore) :
    ((embed_segments env model now segs s).1).information_resources =
      s.information_resources ∧
    ((embed_segments env model now segs s).1).resource_segments =
      s.resource_segments ∧
    ((embed_segments env model now segs s).1).entities = s.entities ∧
    ((embed_segments env model now segs s).1).segment_entity_links =
      s.segment_entity_links := by
  unfold embed_segments
  generalize segs.filter (fun seg => (getEmbedding s seg.id).isNone) = ts
  induction ts generalizing s with
  | nil => exact ⟨rfl, rfl, rfl, rfl⟩
  | cons t ts ih =>
    simp only [List.foldl_cons]
    exact ih _

/-! ## Lookup and counting machinery -/

/-- find? commutes with a map that does not change the predicate. -/
lemma find?_map_pred {α : Type} (p : α → Bool) (f : α → α)
    (hp : ∀ y, p (f y) = p y) :
    ∀ l : List α, List.find? p (l.map f) = (List.find? p l).map f := by
  intro l
  induction l with
  | nil => rfl
  | cons a as ih =>
    rw [List.map_cons, List.find?_cons, List.find?_cons, hp a]
    cases p a with
    | true => rfl
    | false => exact ih

/-- A matched row of getIRByUri carries the queried namespace and URI. -/
lemma getIRByUri_fields {s : KnowledgeStore} {nsp uri : String}
    {ir : InformationResource} (h : getIRByUri s nsp uri = some ir) :
    ir.nsp = nsp ∧ ir.source_uri = uri := by
  have := List.find?_some h
  rw [Bool.and_eq_true, beq_iff_eq, beq_iff_eq] at this
  exact this

/-- The store has a segment row with the given id. -/
def hasSegId (s : KnowledgeStore) (x : String) : Prop :=
  ∃ r ∈ s.resource_segments, r.id = x

/-- getSegmentById succeeds exactly when a row with the id is present. -/
lemma getSegmentById_isSome_iff (s : KnowledgeStore) (x : String) :
    (getSegmentById s x).isSome = true ↔ hasSegId s x := by
  unfold getSegmentById hasSegId
  rw [List.find?_isSome]
  constructor
  · rintro ⟨r, hr, hpr⟩
    exact ⟨r, hr, beq_iff_eq.mp hpr⟩
  · rintro ⟨r, hr, hpr⟩
    exact ⟨r, hr, beq_iff_eq.mpr hpr⟩

/-- A segment upsert preserves the (id, ir_id, created_at) projection of
the table whenever the id is already present. -/
lemma upsertSegment_proj (seg : ResourceSegment) (s : KnowledgeStore)
    (h : hasSegId s seg.id) :
    ((upsertSegment seg s).2).resource_segments.map
        (fun r => (r.id, r.ir_id, r.created_at)) =
      s.resource_segments.map (fun r => (r.id, r.ir_id, r.created_at)) := by
  unfold upsertSegment
  have hs : (getSegmentById s seg.id).isSome = true :=
    (getSegmentById_isSome_iff s seg.id).mpr h
  obtain ⟨ex, hex⟩ := Option.isSome_iff_exists.mp hs
  rw [hex]
  dsimp only
  rw [List.map_map]
  refine List.map_congr_left ?_
  intro r _
  by_cases hid : r.id = seg.id <;> simp [hid]

/-- A segment upsert makes its own id present. -/
lemma upsertSegment_present_self (seg : ResourceSegment) (s : KnowledgeStore) :
    hasSegId ((upsertSegment seg s).2) seg.id := by
  unfold upsertSegment
  cases hex : getSegmentById s seg.id with
  | some ex =>
    dsimp only
    have hex' : s.resource_segments.find? (fun r => r.id == seg.id) = some ex := hex
    have hmem : ex ∈ s.resource_segments := List.mem_of_find?_eq_some hex'
    have hexid : ex.id = seg.id := by
      have hp := List.find?_some hex'
      exact beq_iff_eq.mp hp
    refine ⟨{ ex with text := seg.text, provenance := seg.provenance, text_hash := seg.text_hash }, ?_, hexid⟩
    have := List.mem_map_of_mem (fun r =>
      if r.id == seg.id then
        { r with text := seg.text, provenance := seg.provenance, text_hash := seg.text_hash }
      else r) hmem
    simpa [beq_iff_eq.mpr hexid] using this
  | none =>
    exact ⟨seg, by simp, rfl⟩

/-- A segment upsert keeps every previously present id present. -/
lemma upsertSegment_present_mono (seg : ResourceSegment) (s : KnowledgeStore)
    (x : String) (h : hasSegId s x) : hasSegId ((upsertSegment seg s).2) x := by
  unfold upsertSegment
  obtain ⟨r, hr, hid⟩ := h
  cases hex : getSegmentById s seg.id with
  | some ex =>
    dsimp only
    by_cases hcase : r.id == seg.id
    · refine ⟨{ r with text := seg.text, provenance := seg.provenance, text_hash := seg.text_hash }, ?_, hid⟩
      have := List.mem_map_of_mem (fun r =>
        if r.id == seg.id then
          { r with text := seg.text, provenance := seg.provenance, text_hash := seg.text_hash }
        else r) hr
      simpa [hcase] using this
    · refine ⟨r, ?_, hid⟩
      have := List.mem_map_of_mem (fun r =>
        if r.id == seg.id then
          { r with text := seg.text, provenance := seg.provenance, text_hash := seg.text_hash }
        else r) hr
      simpa [hcase] using this
  | none =>
    exact ⟨r, by simp [hr], hid⟩

/-- Bulk upsert keeps every previously present id present. -/
lemma bulkUpsertSegments_present_mono (segs : List ResourceSegment)
    (s : KnowledgeStore) (x : String) (h : hasSegId s x) :
    hasSegId (bulkUpsertSegments segs s) x := by
  induction segs generalizing s with
  | nil => exact h
  | cons seg segs ih => exact ih _ (upsertSegment_present_mono seg s x h)

/-- After a bulk upsert every id of the batch is present. -/
lemma bulkUpsertSegments_present (segs : List ResourceSegment)
    (s : KnowledgeStore) :
    ∀ seg ∈ segs, hasSegId (bulkUpsertSegments segs s) seg.id := by
  induction segs generalizing s with
  | nil => intro seg h; cases h
  | cons seg segs ih =>
    intro t ht
    rcases List.mem_cons.mp ht with rfl | ht
    · exact bulkUpsertSegments_present_mono segs _ t.id
        (upsertSegment_present_self t s)
    · exact ih _ t ht

/-- Bulk upsert of already-present ids preserves the (id, ir_id,
created_at) projection of the segments table. -/
lemma bulkUpsertSegments_proj (segs : List ResourceSegment)
    (s : KnowledgeStore) (h : ∀ seg ∈ segs, hasSegId s seg.id) :
    (bulkUpsertSegments segs s).resource_segments.map
        (fun r => (r.id, r.ir_id, r.created_at)) =
      s.resource_segments.map (fun r => (r.id, r.ir_id, r.created_at)) := by
  induction segs generalizing s with
  | nil => rfl
  | cons seg segs ih =>
    have hseg := h seg (by simp)
    have hpres : ∀ t ∈ segs, hasSegId ((upsertSegment seg s).2) t.id :=
      fun t ht => upsertSegment_present_mono seg s t.id (h t (by simp [ht]))
    exact (ih _ hpres).trans (upsertSegment_proj seg s hseg)

/-- Two stores with identical IR tables and identical segment ir_id
projections have identical segment counts in every scope. -/
lemma countSegments_congr (s s' : KnowledgeStore)
    (hir : s'.information_resources = s.information_resources)
    (hseg : s'.resource_segments.map (fun r => r.ir_id) =
      s.resource_segments.map (fun r => r.ir_id)) (ns : Option String) :
    countSegments s' ns = countSegments s ns := by
  cases ns with
  | none =>
    have := congrArg List.length hseg
    simpa [countSegments] using this
  | some n =>
    simp only [countSegments, getIRById]
    have key : ∀ t : KnowledgeStore,
        (t.resource_segments.filter (fun seg =>
          match t.information_resources.find? (fun r => r.id == seg.ir_id) with
          | some ir => ir.nsp == n
          | none => false)).length =
        ((t.resource_segments.map (fun r => r.ir_id)).filter (fun z =>
          match t.information_resources.find? (fun r => r.id == z) with
          | some ir => ir.nsp == n
          | none => false)).length := by
      intro t
      rw [List.filter_map]
      rw [List.length_map]
      rfl
    rw [key, key, hseg, hir]

/-! ## Pipeline building-block lemmas -/

/-- What `register_ir` guarantees: afterwards the (namespace, source_uri)
lookup yields exactly the returned record, whose content hash is the hash
of the ingested bytes and whose namespace/URI are the queried ones; no
other table is touched. -/
lemma register_ir_spec (env : PipelineEnv) (content nsp sty source_uri : String)
    (md : List (String × String)) (now : Nat) (s : KnowledgeStore) (ctr : Nat) :
    getIRByUri (register_ir env content nsp sty source_uri md now s ctr).2.1
        nsp source_uri =
      some (register_ir env content nsp sty source_uri md now s ctr).1 ∧
    (register_ir env content nsp sty source_uri md now s ctr).1.content_hash =
      generate_content_hash (utf8Encode content) ∧
    (register_ir env content nsp sty source_uri md now s ctr).1.source_uri =
      source_uri ∧
    (register_ir env content nsp sty source_uri md now s ctr).2.1.resource_segments =
      s.resource_segments ∧
    (register_ir env content nsp sty source_uri md now s ctr).2.1.entities =
      s.entities ∧
    (register_ir env content nsp sty source_uri md now s ctr).2.1.embeddings =
      s.embeddings := by
  unfold register_ir
  cases hfind : getIRByUri s nsp source_uri with
  | some existing =>
    dsimp only
    obtain ⟨hn, hu⟩ := getIRByUri_fields hfind
    by_cases hneq : existing.content_hash ≠ generate_content_hash (utf8Encode content)
    · rw [if_pos hneq]
      unfold upsertInformationResource
      dsimp only
      rw [hn, hu, hfind]
      dsimp only
      unfold getIRByUri
      rw [find?_map_pred _ _ ?hp]
      case hp =>
        intro y
        by_cases hy : y.id == existing.id <;> simp [hy]
      have hfind' : s.information_resources.find?
          (fun r => r.nsp == nsp && r.source_uri == source_uri) = some existing := hfind
      rw [hfind']
      refine ⟨?_, rfl, rfl, rfl, rfl, rfl⟩
      simp [hn, hu]
    · rw [if_neg hneq]
      rw [not_ne_iff] at hneq
      exact ⟨hfind, hneq, hu, rfl, rfl, rfl⟩
  | none =>
    dsimp only
    unfold upsertInformationResource
    dsimp only
    rw [hfind]
    dsimp only
    unfold getIRByUri
    rw [List.find?_append]
    have hn : s.information_resources.find?
        (fun r => r.nsp == nsp && r.source_uri == source_uri) = none := hfind
    rw [hn]
    simp

/-- The emission loop maps equally under a projection that does not
distinguish the two makers. -/
lemma segEmitLoop_map_proj {α : Type} (n : Nat)
    (mk1 mk2 : Nat → List String → Nat → ResourceSegment)
    (g : ResourceSegment → α) (hmk : ∀ i b k, g (mk1 i b k) = g (mk2 i b k)) :
    ∀ (sents : List String) (acc1 acc2 : List ResourceSegment),
      acc1.map g = acc2.map g →
      (segEmitLoop n mk1 sents acc1).map g =
        (segEmitLoop n mk2 sents acc2).map g := by
  intro sents
  unfold segEmitLoop
  generalize batches n sents = bs
  induction bs with
  | nil => intro a1 a2 h; simpa using h
  | cons b bs ih =>
    intro a1 a2 h
    simp only [List.foldl_cons]
    by_cases he : (pyStrip (joinSp (b.2.map String.data))).isEmpty
    · rw [if_pos he, if_pos he]
      exact ih _ _ h
    · rw [if_neg he, if_neg he]
      refine ih _ _ ?_
      have hlen : a1.length = a2.length := by
        have := congrArg List.length h
        simpa using this
      rw [List.map_append, List.map_append, h, hlen, List.map_cons,
        List.map_cons, List.map_nil, hmk]

/-- The segment ids of plain-text segmentation do not depend on the IR id
or the clock. -/
lemma segment_text_id_proj (n : Nat) (content nsp uri i1 i2 : String)
    (t1 t2 : Nat) :
    (segment_text n content i1 nsp uri t1).map (fun r => r.id) =
      (segment_text n content i2 nsp uri t2).map (fun r => r.id) := by
  unfold segment_text
  refine segEmitLoop_map_proj n _ _ _ ?_ (split_sentences content) [] [] rfl
  intro i b k
  rfl

/-- An all-whitespace strip means every character was whitespace. -/
lemma allws_of_pyStrip_isEmpty {l : List Char} (h : (pyStrip l).isEmpty = true) :
    ∀ c ∈ l, isPyWs c = true := by
  rw [List.isEmpty_iff] at h
  unfold pyStrip at h
  rw [List.reverse_eq_nil_iff, List.dropWhile_eq_nil_iff] at h
  have hdrop : ∀ c ∈ l.dropWhile isPyWs, isPyWs c = true := by
    intro c hc
    exact h c (List.mem_reverse.mpr hc)
  intro c hc
  rw [← List.takeWhile_append_dropWhile isPyWs l] at hc
  rcases List.mem_append.mp hc with hc | hc
  · exact List.mem_takeWhile_imp hc
  · exact hdrop c hc

/-- A whitespace character is not a sentence terminator. -/
lemma ws_not_sentEnd {c : Char} (h : isPyWs c = true) : isSentEnd c = false := by
  by_contra hne
  have ht : isSentEnd c = true := by simpa using hne
  unfold isSentEnd at ht
  simp only [Bool.or_eq_true, beq_iff_eq] at ht
  rcases ht with (rfl | rfl) | rfl <;> exact absurd h (by decide)

/-- Defining equation of the sentence splitter on a cons with fuel. -/
lemma reSplitF_succ_cons (f : Nat) (a : Char) (as acc : List Char) :
    reSplitF (f+1) (a :: as) acc =
      if isPyWs a && headSentEnd acc && headUpper (as.dropWhile isPyWs) then
        acc.reverse :: reSplitF f (as.dropWhile isPyWs) []
      else reSplitF f as (a :: acc) := rfl

/-- Sentence splitting of all-whitespace text produces all-whitespace
pieces. -/
lemma reSplitF_allws : ∀ (f : Nat) (l acc : List Char),
    (∀ c ∈ l, isPyWs c = true) → (∀ c ∈ acc, isPyWs c = true) →
    ∀ p ∈ reSplitF f l acc, ∀ c ∈ p, isPyWs c = true := by
  intro f
  induction f with
  | zero =>
    intro l acc hl hacc p hp c hc
    cases l with
    | nil =>
      rcases List.mem_singleton.mp hp with rfl
      exact hacc c (List.mem_reverse.mp hc)
    | cons a as =>
      rcases List.mem_singleton.mp hp with rfl
      rcases List.mem_append.mp hc with hc | hc
      · exact hacc c (List.mem_reverse.mp hc)
      · exact hl c hc
  | succ f ih =>
    intro l acc hl hacc p hp c hc
    cases l with
    | nil =>
      rcases List.mem_singleton.mp hp with rfl
      exact hacc c (List.mem_reverse.mp hc)
    | cons a as =>
      have hcond : (isPyWs a && headSentEnd acc &&
          headUpper (as.dropWhile isPyWs)) = false := by
        have hmid : headSentEnd acc = false := by
          cases acc with
          | nil => rfl
          | cons x xs => exact ws_not_sentEnd (hacc x (by simp))
        rw [hmid]
        simp
      have heq : reSplitF (f+1) (a :: as) acc = reSplitF f as (a :: acc) := by
        rw [reSplitF_succ_cons, hcond]
        simp
      rw [heq] at hp
      refine ih as (a :: acc) (fun x hx => hl x (by simp [hx])) ?_ p hp c hc
      intro x hx
      rcases List.mem_cons.mp hx with rfl | hx
      · exact hl x (by simp)
      · exact hacc x hx

/-- Stripping an all-whitespace list gives the empty list. -/
lemma pyStrip_allws {l : List Char} (h : ∀ c ∈ l, isPyWs c = true) :
    pyStrip l = [] := by
  unfold pyStrip
  rw [List.dropWhile_eq_nil_iff.mpr h]
  rfl

/-- All-whitespace text has no sentences. -/
lemma split_sentences_allws {content : String}
    (h : (pyStrip content.data).isEmpty = true) :
    split_sentences content = [] := by
  unfold split_sentences
  dsimp only
  have hall := allws_of_pyStrip_isEmpty h
  have hpieces := reSplitF_allws content.data.length content.data [] hall (by simp)
  have hcleaned : ((reSplitF content.data.length content.data []).map pyStrip).filter
      (fun sl => !sl.isEmpty) = [] := by
    rw [List.filter_eq_nil_iff]
    intro a ha
    obtain ⟨p, hp, rfl⟩ := List.mem_map.mp ha
    rw [pyStrip_allws (hpieces p hp)]
    simp
  rw [hcleaned]
  rfl

/-- Segmenting all-whitespace text yields no segments. -/
lemma segment_text_allws {content : String}
    (h : (pyStrip content.data).isEmpty = true)
    (n : Nat) (ir_id nsp uri : String) (now : Nat) :
    segment_text n content ir_id nsp uri now = [] := by
  unfold segment_text segEmitLoop
  rw [split_sentences_allws h]
  rfl

/-- The entity extractor only produces confidences in [0, 1]. -/
def extractorValid (env : PipelineEnv) : Prop :=
  ∀ t c, c ∈ env.extract t → 0 ≤ c.confidence ∧ c.confidence ≤ 1

/-- With in-bounds confidences the candidate loop never errors. -/
lemma linkCandidates_no_error (env : PipelineEnv) (nsp : String) (now : Nat)
    (segId : String) :
    ∀ (cands : List ExtractedEntity) (st : LinkState),
    (∀ c ∈ cands, 0 ≤ c.confidence ∧ c.confidence ≤ 1) →
    (linkCandidates env nsp now segId cands st).2 = none := by
  intro cands
  induction cands with
  | nil => intro st _; rfl
  | cons c rest ih =>
    intro st hc
    unfold linkCandidates
    have hcc := hc c (by simp)
    cases hfound : getEntityByName st.store nsp c.type c.name with
    | some e =>
      dsimp only
      rw [show mkEntityLink segId e.id "mentions" c.confidence now =
        .ok ⟨segId, e.id, "mentions", c.confidence, now⟩ from by
          unfold mkEntityLink; rw [if_pos hcc]]
      exact ih _ (fun x hx => hc x (by simp [hx]))
    | none =>
      dsimp only
      rw [show mkEntityLink segId ((upsertEntity now
          { id := env.idGen st.ctr, nsp := nsp, type := c.type, name := c.name,
            aliases := c.aliases, metadata := c.metadata,
            created_at := now, updated_at := now } st.store).1).id
          "mentions" c.confidence now =
        .ok ⟨segId, ((upsertEntity now
          { id := env.idGen st.ctr, nsp := nsp, type := c.type, name := c.name,
            aliases := c.aliases, metadata := c.metadata,
            created_at := now, updated_at := now } st.store).1).id,
          "mentions", c.confidence, now⟩ from by
          unfold mkEntityLink; rw [if_pos hcc]]
      exact ih _ (fun x hx => hc x (by simp [hx]))

/-- With a valid extractor the segment loop never errors. -/
lemma linkSegments_no_error (env : PipelineEnv) (nsp : String) (now : Nat)
    (hvalid : extractorValid env) :
    ∀ (segs : List ResourceSegment) (st : LinkState),
    (linkSegments env nsp now segs st).2 = none := by
  intro segs
  induction segs with
  | nil => intro st; rfl
  | cons seg rest ih =>
    intro st
    unfold linkSegments
    have hno := linkCandidates_no_error env nsp now seg.id (env.extract seg.text)
      st (fun c hc => hvalid seg.text c hc)
    cases hlc : linkCandidates env nsp now seg.id (env.extract seg.text) st with
    | mk st' err =>
      rw [hlc] at hno
      dsimp at hno
      subst hno
      exact ih st'

/-- With a valid extractor extraction-and-linking never errors. -/
lemma extract_and_link_no_error (env : PipelineEnv) (nsp : String) (now : Nat)
    (hvalid : extractorValid env) (segs : List ResourceSegment)
    (s : KnowledgeStore) (ctr : Nat) :
    (extract_and_link_entities env nsp now segs s ctr).2 = none := by
  unfold extract_and_link_entities
  have hno := linkSegments_no_error env nsp now hvalid segs ⟨s, ctr, [], [], []⟩
  cases hls : linkSegments env nsp now segs ⟨s, ctr, [], [], []⟩ with
  | mk st err =>
    rw [hls] at hno
    dsimp at hno
    subst hno
    rfl

/-- The IR-by-URI lookup reads only the information_resources table. -/
lemma getIRByUri_congr {s s' : KnowledgeStore}
    (h : s'.information_resources = s.information_resources) (nsp uri : String) :
    getIRByUri s' nsp uri = getIRByUri s nsp uri := by
  unfold getIRByUri
  rw [h]

/-- Segment presence reads only the resource_segments table. -/
lemma hasSegId_congr {s s' : KnowledgeStore}
    (h : s'.resource_segments = s.resource_segments) (x : String) :
    hasSegId s' x ↔ hasSegId s x := by
  unfold hasSegId
  rw [h]

/-- Segmentation lengths do not depend on the IR id or the clock. -/
lemma segment_text_length (n : Nat) (content nsp uri i1 i2 : String)
    (t1 t2 : Nat) :
    (segment_text n content i1 nsp uri t1).length =
      (segment_text n content i2 nsp uri t2).length := by
  have := congrArg List.length (segment_text_id_proj n content nsp uri i1 i2 t1 t2)
  simpa using this

/-- With a valid extractor, `ingest_text` succeeds and returns the IR
together with exactly the segments of its own segmentation run. -/
lemma ingest_text_result_spec (env : PipelineEnv) (content nsp uri : String)
    (md : List (String × String)) (now : Nat) (s : KnowledgeStore) (ctr : Nat)
    (hvalid : extractorValid env) :
    ∃ ir ents, (ingest_text env content nsp uri md now s ctr).result =
      .ok ⟨ir, segment_text env.sentences_per_segment content ir.id nsp
        ir.source_uri now, ents⟩ ∧ ir.source_uri = uri := by
  obtain ⟨hfind, hhash, huri, hsegs, hents, hembs⟩ :=
    register_ir_spec env content nsp "txt" uri md now s ctr
  unfold ingest_text
  dsimp only
  by_cases hempty : (pyStrip content.data).isEmpty
  · rw [if_pos hempty]
    refine ⟨(register_ir env content nsp "txt" uri md now s ctr).1, [], ?_, huri⟩
    rw [segment_text_allws hempty]
  · rw [if_neg hempty]
    by_cases hse : (segment_text env.sentences_per_segment content
        (register_ir env content nsp "txt" uri md now s ctr).1.id nsp
        (register_ir env content nsp "txt" uri md now s ctr).1.source_uri now).isEmpty
    · rw [if_pos hse]
      refine ⟨(register_ir env content nsp "txt" uri md now s ctr).1, [], ?_, huri⟩
      rw [List.isEmpty_iff] at hse
      rw [hse]
    · rw [if_neg hse]
      have hno := extract_and_link_no_error env nsp now hvalid
        (segment_text env.sentences_per_segment content
          (register_ir env content nsp "txt" uri md now s ctr).1.id nsp
          (register_ir env content nsp "txt" uri md now s ctr).1.source_uri now)
        (bulkUpsertSegments (segment_text env.sentences_per_segment content
          (register_ir env content nsp "txt" uri md now s ctr).1.id nsp
          (register_ir env content nsp "txt" uri md now s ctr).1.source_uri now)
          (register_ir env content nsp "txt" uri md now s ctr).2.1)
        (register_ir env content nsp "txt" uri md now s ctr).2.2.1
      cases hex : extract_and_link_entities env nsp now
          (segment_text env.sentences_per_segment content
            (register_ir env content nsp "txt" uri md now s ctr).1.id nsp
            (register_ir env content nsp "txt" uri md now s ctr).1.source_uri now)
          (bulkUpsertSegments (segment_text env.sentences_per_segment content
            (register_ir env content nsp "txt" uri md now s ctr).1.id nsp
            (register_ir env content nsp "txt" uri md now s ctr).1.source_uri now)
            (register_ir env content nsp "txt" uri md now s ctr).2.1)
          (register_ir env content nsp "txt" uri md now s ctr).2.2.1 with
      | mk st err =>
        rw [hex] at hno
        dsimp at hno
        subst hno
        dsimp only
        exact ⟨(register_ir env content nsp "txt" uri md now s ctr).1, st.ents,
          rfl, huri⟩

/-- With a valid extractor, `ingest_file` returns the canonical segment
count of the content — the same value on every invocation, whatever the
prior store state. -/
lemma ingest_file_result_spec (env : PipelineEnv) (model content nsp uri : String)
    (md : List (String × String)) (now : Nat) (s : KnowledgeStore) (ctr : Nat)
    (hvalid : extractorValid env) :
    (ingest_file env model content nsp uri md now s ctr).result =
      .ok ((segment_text env.sentences_per_segment content "" nsp uri 0).length) := by
  obtain ⟨ir, ents, hres, huri⟩ :=
    ingest_text_result_spec env content nsp uri md now s ctr hvalid
  unfold ingest_file
  dsimp only
  rw [hres]
  dsimp only
  have hlen : (segment_text env.sentences_per_segment content ir.id nsp
      ir.source_uri now).length =
      (segment_text env.sentences_per_segment content "" nsp uri 0).length := by
    rw [huri]
    exact segment_text_length _ content nsp uri _ _ _ _
  split
  · dsimp only
    rw [hlen]
  · dsimp only
    rw [hlen]

/-- Readiness of a store for cheap re-ingestion of the same content: the
IR is registered with the matching hash, and every segment id of the
content is present. -/
def ReadyFor (env : PipelineEnv) (content nsp uri : String)
    (s : KnowledgeStore) : Prop :=
  (∃ ir', getIRByUri s nsp uri = some ir' ∧
    ir'.content_hash = generate_content_hash (utf8Encode content)) ∧
  (∀ sid ∈ (segment_text env.sentences_per_segment content "" nsp uri 0).map
      (fun r => r.id), hasSegId s sid)

/-- Any `ingest_text` run leaves the store ready for re-ingestion of the
same content. -/
lemma ingest_text_ready (env : PipelineEnv) (content nsp uri : String)
    (md : List (String × String)) (now : Nat) (s : KnowledgeStore) (ctr : Nat) :
    ReadyFor env content nsp uri (ingest_text env content nsp uri md now s ctr).store := by
  obtain ⟨hfind, hhash, huri, hsegs, hents, hembs⟩ :=
    register_ir_spec env content nsp "txt" uri md now s ctr
  unfold ingest_text
  dsimp only
  by_cases hempty : (pyStrip content.data).isEmpty
  · rw [if_pos hempty]
    refine ⟨⟨_, hfind, hhash⟩, ?_⟩
    rw [segment_text_allws hempty]
    simp
  · rw [if_neg hempty]
    have hids : (segment_text env.sentences_per_segment content "" nsp uri 0).map
        (fun r => r.id) =
        (segment_text env.sentences_per_segment content
          (register_ir env content nsp "txt" uri md now s ctr).1.id nsp
          (register_ir env content nsp "txt" uri md now s ctr).1.source_uri now).map
          (fun r => r.id) := by
      rw [huri]
      exact segment_text_id_proj _ content nsp uri _ _ _ _
    by_cases hse : (segment_text env.sentences_per_segment content
        (register_ir env content nsp "txt" uri md now s ctr).1.id nsp
        (register_ir env content nsp "txt" uri md now s ctr).1.source_uri now).isEmpty
    · rw [if_pos hse]
      refine ⟨⟨_, hfind, hhash⟩, ?_⟩
      rw [List.isEmpty_iff] at hse
      rw [hids, hse]
      simp
    · rw [if_neg hse]
      cases hex : extract_and_link_entities env nsp now
          (segment_text env.sentences_per_segment content
            (register_ir env content nsp "txt" uri md now s ctr).1.id nsp
            (register_ir env content nsp "txt" uri md now s ctr).1.source_uri now)
          (bulkUpsertSegments (segment_text env.sentences_per_segment content
            (register_ir env content nsp "txt" uri md now s ctr).1.id nsp
            (register_ir env content nsp "txt" uri md now s ctr).1.source_uri now)
            (register_ir env content nsp "txt" uri md now s ctr).2.1)
          (register_ir env content nsp "txt" uri md now s ctr).2.2.1 with
      | mk st err =>
        have hfr := extract_and_link_entities_frame env nsp now
          (segment_text env.sentences_per_segment content
            (register_ir env content nsp "txt" uri md now s ctr).1.id nsp
            (register_ir env content nsp "txt" uri md now s ctr).1.source_uri now)
          (bulkUpsertSegments (segment_text env.sentences_per_segment content
            (register_ir env content nsp "txt" uri md now s ctr).1.id nsp
            (register_ir env content nsp "txt" uri md now s ctr).1.source_uri now)
            (register_ir env content nsp "txt" uri md now s ctr).2.1)
          (register_ir env content nsp "txt" uri md now s ctr).2.2.1
        rw [hex] at hfr
        have hirseq : st.store.information_resources =
            (register_ir env content nsp "txt" uri md now s ctr).2.1.information_resources := by
          rw [hfr.1, (bulkUpsertSegments_frame _ _).1]
        have hsegseq : st.store.resource_segments =
            (bulkUpsertSegments (segment_text env.sentences_per_segment content
              (register_ir env content nsp "txt" uri md now s ctr).1.id nsp
              (register_ir env content nsp "txt" uri md now s ctr).1.source_uri now)
              (register_ir env content nsp "txt" uri md now s ctr).2.1).resource_segments :=
          hfr.2.1
        cases err with
        | some m =>
          dsimp only
          refine ⟨⟨_, ?_, hhash⟩, ?_⟩
          · rw [getIRByUri_congr hirseq]
            exact hfind
          · intro sid hsid
            rw [hids] at hsid
            obtain ⟨seg, hseg, rfl⟩ := List.mem_map.mp hsid
            rw [hasSegId_congr hsegseq]
            exact bulkUpsertSegments_present _ _ seg hseg
        | none =>
          dsimp only
          refine ⟨⟨_, ?_, hhash⟩, ?_⟩
          · rw [getIRByUri_congr hirseq]
            exact hfind
          · intro sid hsid
            rw [hids] at hsid
            obtain ⟨seg, hseg, rfl⟩ := List.mem_map.mp hsid
            rw [hasSegId_congr hsegseq]
            exact bulkUpsertSegments_present _ _ seg hseg

/-- Re-ingesting content that the store is ready for leaves every segment
count — total and namespace-scoped — unchanged: the register step takes
the cheap path and the segment upserts are all updates of existing ids. -/
lemma ingest_text_counts (env : PipelineEnv) (content nsp uri : String)
    (md : List (String × String)) (now : Nat) (s : KnowledgeStore) (ctr : Nat)
    (hready : ReadyFor env content nsp uri s) (ns : Option String) :
    countSegments (ingest_text env content nsp uri md now s ctr).store ns =
      countSegments s ns := by
  obtain ⟨⟨ir', hfind, hhash⟩, hpres⟩ := hready
  obtain ⟨hn, hu⟩ := getIRByUri_fields hfind
  have hreg : register_ir env content nsp "txt" uri md now s ctr =
      (ir', s, ctr, []) := by
    unfold register_ir
    rw [hfind]
    dsimp only
    rw [if_neg (not_ne_iff.mpr hhash)]
  unfold ingest_text
  rw [hreg]
  dsimp only
  by_cases hempty : (pyStrip content.data).isEmpty
  · rw [if_pos hempty]
  · rw [if_neg hempty]
    have hids : (segment_text env.sentences_per_segment content "" nsp uri 0).map
        (fun r => r.id) =
        (segment_text env.sentences_per_segment content ir'.id nsp
          ir'.source_uri now).map (fun r => r.id) := by
      rw [hu]
      exact segment_text_id_proj _ content nsp uri _ _ _ _
    by_cases hse : (segment_text env.sentences_per_segment content ir'.id nsp
        ir'.source_uri now).isEmpty
    · rw [if_pos hse]
    · rw [if_neg hse]
      have hpres' : ∀ seg ∈ segment_text env.sentences_per_segment content
          ir'.id nsp ir'.source_uri now, hasSegId s seg.id := by
        intro seg hseg
        apply hpres
        rw [hids]
        exact List.mem_map_of_mem _ hseg
      cases hex : extract_and_link_entities env nsp now
          (segment_text env.sentences_per_segment content ir'.id nsp
            ir'.source_uri now)
          (bulkUpsertSegments (segment_text env.sentences_per_segment content
            ir'.id nsp ir'.source_uri now) s) ctr with
      | mk st err =>
        have hfr := extract_and_link_entities_frame env nsp now
          (segment_text env.sentences_per_segment content ir'.id nsp
            ir'.source_uri now)
          (bulkUpsertSegments (segment_text env.sentences_per_segment content
            ir'.id nsp ir'.source_uri now) s) ctr
        rw [hex] at hfr
        have hproj := bulkUpsertSegments_proj
          (segment_text env.sentences_per_segment content ir'.id nsp
            ir'.source_uri now) s hpres'
        have hirid : (bulkUpsertSegments (segment_text env.sentences_per_segment
            content ir'.id nsp ir'.source_uri now) s).resource_segments.map
            (fun r => r.ir_id) =
            s.resource_segments.map (fun r => r.ir_id) := by
          have := congrArg (List.map (fun p : String × String × Nat => p.2.1)) hproj
          rw [List.map_map, List.map_map] at this
          exact this
        cases err with
        | some m =>
          dsimp only
          refine countSegments_congr s st.store ?_ ?_ ns
          · rw [hfr.1, (bulkUpsertSegments_frame _ _).1]
          · rw [hfr.2.1]
            exact hirid
        | none =>
          dsimp only
          refine countSegments_congr s st.store ?_ ?_ ns
          · rw [hfr.1, (bulkUpsertSegments_frame _ _).1]
          · rw [hfr.2.1]
            exact hirid

/-- `ingest_file` wraps `ingest_text` followed by the embedding stage,
which touches only the embeddings table; so its store has the same counts
and remains ready. -/
lemma ingest_file_store_facts (env : PipelineEnv) (model content nsp uri : String)
    (md : List (String × String)) (now : Nat) (s : KnowledgeStore) (ctr : Nat) :
    ReadyFor env content nsp uri (ingest_file env model content nsp uri md now s ctr).store ∧
    ∀ ns, countSegments (ingest_file env model content nsp uri md now s ctr).store ns =
      countSegments (ingest_text env content nsp uri md now s ctr).store ns := by
  have hready := ingest_text_ready env content nsp uri md now s ctr
  unfold ingest_file
  dsimp only
  cases hres : (ingest_text env content nsp uri md now s ctr).result with
  | error m => exact ⟨hready, fun ns => rfl⟩
  | ok r =>
    dsimp only
    by_cases hre : r.segments.isEmpty
    · rw [if_pos hre]
      exact ⟨hready, fun ns => rfl⟩
    · rw [if_neg hre]
      dsimp only
      have hfr := embed_segments_frame env model now r.segments
        (ingest_text env content nsp uri md now s ctr).store
      obtain ⟨⟨ir', hfind, hhash⟩, hpres⟩ := hready
      refine ⟨⟨⟨ir', ?_, hhash⟩, ?_⟩, ?_⟩
      · rw [getIRByUri_congr hfr.1]
        exact hfind
      · intro sid hsid
        rw [hasSegId_congr hfr.2.1]
        exact hpres sid hsid
      · intro ns
        exact countSegments_congr _ _ hfr.1
          (by rw [hfr.2.1]) ns

/-- C1: ingesting the same file into the same namespace once versus three
times yields the identical segment count; each repeated ingestion succeeds
(no duplicate error is raised — the model is total and returns ok) and
returns the same count, and the namespace-scoped count_segments is left
unchanged by the second and third ingestions. -/
theorem C1_triple_ingestion_idempotent (env : PipelineEnv)
    (hvalid : extractorValid env) (model content nsp uri : String)
    (md : List (String × String)) (now1 now2 now3 : Nat)
    (s0 : KnowledgeStore) (ctr0 : Nat) :
    let o1 := ingest_file env model content nsp uri md now1 s0 ctr0
    let o2 := ingest_file env model content nsp uri md now2 o1.store o1.ctr
    let o3 := ingest_file env model content nsp uri md now3 o2.store o2.ctr
    (∃ k, o1.result = Except.ok k) ∧
    o2.result = o1.result ∧ o3.result = o1.result ∧
    countSegments o2.store (some nsp) = countSegments o1.store (some nsp) ∧
    countSegments o3.store (some nsp) = countSegments o1.store (some nsp) := by
  intro o1 o2 o3
  have h1 := ingest_file_result_spec env model content nsp uri md now1 s0 ctr0 hvalid
  have h2 := ingest_file_result_spec env model content nsp uri md now2 o1.store o1.ctr hvalid
  have h3 := ingest_file_result_spec env model content nsp uri md now3 o2.store o2.ctr hvalid
  have f1 := ingest_file_store_facts env model content nsp uri md now1 s0 ctr0
  have f2 := ingest_file_store_facts env model content nsp uri md now2 o1.store o1.ctr
  have c2 : countSegments o2.store (some nsp) = countSegments o1.store (some nsp) :=
    (f2.2 (some nsp)).trans
      (ingest_text_counts env content nsp uri md now2 o1.store o1.ctr f1.1 (some nsp))
  have f2' := ingest_file_store_facts env model content nsp uri md now3 o2.store o2.ctr
  have c3 : countSegments o3.store (some nsp) = countSegments o2.store (some nsp) :=
    (f2'.2 (some nsp)).trans
      (ingest_text_counts env content nsp uri md now3 o2.store o2.ctr f2.1 (some nsp))
  exact ⟨⟨_, h1⟩, h2.trans h1.symm, h3.trans h1.symm, c2, c3.trans c2⟩

/-- Witness for C1 at a concrete environment (an empty-output extractor, a
constant embedder), concrete content and an empty initial store. -/
theorem C1_witness :
    (let env : PipelineEnv :=
      ⟨fun _ => [], fun _ => [(1 : ℚ)], fun k => "uuid-" ++ toString k, 3⟩
    let o1 := ingest_file env "m" "The CCNA001 strain was tested. Results were positive after a while." "lab" "file:///d.txt" [] 1 emptyStore 0
    let o2 := ingest_file env "m" "The CCNA001 strain was tested. Results were positive after a while." "lab" "file:///d.txt" [] 2 o1.store o1.ctr
    let o3 := ingest_file env "m" "The CCNA001 strain was tested. Results were positive after a while." "lab" "file:///d.txt" [] 3 o2.store o2.ctr
    (∃ k, o1.result = Except.ok k) ∧
    o2.result = o1.result ∧ o3.result = o1.result ∧
    countSegments o2.store (some "lab") = countSegments o1.store (some "lab") ∧
    countSegments o3.store (some "lab") = countSegments o1.store (some "lab")) :=
  C1_triple_ingestion_idempotent
    ⟨fun _ => [], fun _ => [(1 : ℚ)], fun k => "uuid-" ++ toString k, 3⟩
    (fun _ c hc => absurd hc (List.not_mem_nil c))
    "m" "The CCNA001 strain was tested. Results were positive after a while."
    "lab" "file:///d.txt" [] 1 2 3 emptyStore 0

/-- The candidate loop only appends entity-write events. -/
lemma linkCandidates_events (env : PipelineEnv) (nsp : String) (now : Nat)
    (segId : String) :
    ∀ (cands : List ExtractedEntity) (st : LinkState),
    ∃ extra, (linkCandidates env nsp now segId cands st).1.events =
      st.events ++ extra ∧ ∀ e ∈ extra, e = StoreEvent.entityWrite := by
  intro cands
  induction cands with
  | nil => intro st; exact ⟨[], by simp [linkCandidates], by simp⟩
  | cons c rest ih =>
    intro st
    unfold linkCandidates
    cases hfound : getEntityByName st.store nsp c.type c.name with
    | some e =>
      dsimp only
      cases hmk : mkEntityLink segId e.id "mentions" c.confidence now with
      | ok link =>
        obtain ⟨extra, hex, hall⟩ := ih { st with links := st.links ++ [link] }
        exact ⟨extra, hex, hall⟩
      | error m => exact ⟨[], by simp, by simp⟩
    | none =>
      dsimp only
      cases hmk : mkEntityLink segId ((upsertEntity now
          { id := env.idGen st.ctr, nsp := nsp, type := c.type, name := c.name,
            aliases := c.aliases, metadata := c.metadata,
            created_at := now, updated_at := now } st.store).1).id
          "mentions" c.confidence now with
      | ok link =>
        obtain ⟨extra, hex, hall⟩ := ih _
        refine ⟨StoreEvent.entityWrite :: extra, ?_, ?_⟩
        · rw [hex]
          simp
        · intro e he
          rcases List.mem_cons.mp he with rfl | he
          · rfl
          · exact hall e he
      | error m =>
        refine ⟨[StoreEvent.entityWrite], by simp, ?_⟩
        intro e he
        rcases List.mem_singleton.mp he with rfl
        rfl

/-- The segment loop only appends entity-write events. -/
lemma linkSegments_events (env : PipelineEnv) (nsp : String) (now : Nat) :
    ∀ (segs : List ResourceSegment) (st : LinkState),
    ∃ extra, (linkSegments env nsp now segs st).1.events =
      st.events ++ extra ∧ ∀ e ∈ extra, e = StoreEvent.entityWrite := by
  intro segs
  induction segs with
  | nil => intro st; exact ⟨[], by simp [linkSegments], by simp⟩
  | cons seg rest ih =>
    intro st
    unfold linkSegments
    obtain ⟨e1, he1, hall1⟩ :=
      linkCandidates_events env nsp now seg.id (env.extract seg.text) st
    cases hlc : linkCandidates env nsp now seg.id (env.extract seg.text) st with
    | mk st' err =>
      rw [hlc] at he1
      cases err with
      | none =>
        obtain ⟨e2, he2, hall2⟩ := ih st'
        refine ⟨e1 ++ e2, ?_, ?_⟩
        · rw [he2, he1, List.append_assoc]
        · intro e he
          rcases List.mem_append.mp he with he | he
          · exact hall1 e he
          · exact hall2 e he
      | some m => exact ⟨e1, he1, hall1⟩

/-- Extraction-and-linking emits only entity-write and link-write
events. -/
lemma extract_and_link_events (env : PipelineEnv) (nsp : String) (now : Nat)
    (segs : List ResourceSegment) (s : KnowledgeStore) (ctr : Nat) :
    ∀ e ∈ (extract_and_link_entities env nsp now segs s ctr).1.events,
      e = StoreEvent.entityWrite ∨ e = StoreEvent.linkWrite := by
  unfold extract_and_link_entities
  obtain ⟨extra, hex, hall⟩ :=
    linkSegments_events env nsp now segs ⟨s, ctr, [], [], []⟩
  cases hls : linkSegments env nsp now segs ⟨s, ctr, [], [], []⟩ with
  | mk st err =>
    rw [hls] at hex
    dsimp at hex
    cases err with
    | some m =>
      intro e he
      dsimp only at he
      rw [hex] at he
      exact Or.inl (hall e he)
    | none =>
      intro e he
      dsimp only at he
      rcases List.mem_append.mp he with he | he
      · rw [hex] at he
        exact Or.inl (hall e he)
      · obtain ⟨_, _, rfl⟩ := List.mem_map.mp he
        exact Or.inr rfl

/-- Counting in a constant-mapped list. -/
lemma count_map_const {α β : Type} [BEq β] [LawfulBEq β] (l : List α)
    (b target : β) :
    (l.map (fun _ => b)).count target =
      if (b == target) = true then l.length else 0 := by
  induction l with
  | nil => simp
  | cons a as ih =>
    rw [List.map_cons]
    by_cases hb : (b == target) = true
    · rw [if_pos hb] at ih ⊢
      rw [List.count_cons, ih]
      simp [hb]
    · rw [if_neg hb] at ih ⊢
      rw [List.count_cons, ih]
      simp [hb]

/-- A list of entity/link-write events has no occurrence of the other
event kinds. -/
lemma count_zero_of_entity_link (l : List StoreEvent)
    (h : ∀ e ∈ l, e = StoreEvent.entityWrite ∨ e = StoreEvent.linkWrite)
    (target : StoreEvent) (h1 : target ≠ StoreEvent.entityWrite)
    (h2 : target ≠ StoreEvent.linkWrite) : l.count target = 0 := by
  rw [List.count_eq_zero]
  intro hmem
  rcases h target hmem with rfl | rfl
  · exact h1 rfl
  · exact h2 rfl

/-- Pipeline environment fixture: extractor that finds nothing, embedder
returning the empty vector, counter-based uuid source, three sentences per
segment. -/
def C4env : PipelineEnv := ⟨fun _ => [], fun _ => [], fun k => "u" ++ toString k, 3⟩

/-- One-sentence content fixture. -/
def C4content : String := "The CCNA001 strain was tested under controlled conditions."

/-- An information resource registered for the fixture content, with the
matching content hash. -/
def C4ir : InformationResource :=
  ⟨"ir0", "lab", "txt", "file:///d.txt",
   generate_content_hash (utf8Encode C4content), [], 0, 0⟩

/-- A store already holding the registered fixture IR. -/
def C4store : KnowledgeStore := ⟨[C4ir], [], [], [], []⟩

/-- C4 (amended): when the (namespace, source_uri) is registered with an
equal content hash, `_register_ir` does return the existing IR with no
store write and no IR event — but the surrounding `ingest_text` still runs
the segmenter on that call and issues one segment write per segment
(value-level no-op updates); it does not skip re-segmentation. -/
theorem C4_equal_hash_reingest_still_segments (env : PipelineEnv)
    (content nsp uri : String) (md : List (String × String)) (now : Nat)
    (s : KnowledgeStore) (ctr : Nat) (ex : InformationResource)
    (h1 : getIRByUri s nsp uri = some ex)
    (h2 : ex.content_hash = generate_content_hash (utf8Encode content)) :
    register_ir env content nsp "txt" uri md now s ctr = (ex, s, ctr, []) ∧
    ((pyStrip content.data).isEmpty = false →
      StoreEvent.segmenterRun ∈ (ingest_text env content nsp uri md now s ctr).events ∧
      (ingest_text env content nsp uri md now s ctr).events.count
          StoreEvent.segmentWrite =
        (segment_text env.sentences_per_segment content ex.id nsp
          ex.source_uri now).length) ∧
    (ingest_text env content nsp uri md now s ctr).events.count
      StoreEvent.irInsert = 0 ∧
    (ingest_text env content nsp uri md now s ctr).events.count
      StoreEvent.irUpdate = 0 := by
  have hreg : register_ir env content nsp "txt" uri md now s ctr =
      (ex, s, ctr, []) := by
    unfold register_ir
    rw [h1]
    dsimp only
    rw [if_neg (not_ne_iff.mpr h2)]
  refine ⟨hreg, ?_⟩
  unfold ingest_text
  rw [hreg]
  dsimp only
  by_cases hempty : (pyStrip content.data).isEmpty
  · rw [if_pos hempty]
    refine ⟨fun hc => absurd hempty (by simp [hc]), by simp, by simp⟩
  · rw [if_neg hempty]
    by_cases hse : (segment_text env.sentences_per_segment content ex.id nsp
        ex.source_uri now).isEmpty
    · rw [if_pos hse]
      rw [List.isEmpty_iff] at hse
      refine ⟨fun _ => ⟨by simp, ?_⟩, by simp, by simp⟩
      rw [hse]
      simp
    · rw [if_neg hse]
      cases hex : extract_and_link_entities env nsp now
          (segment_text env.sentences_per_segment content ex.id nsp
            ex.source_uri now)
          (bulkUpsertSegments (segment_text env.sentences_per_segment content
            ex.id nsp ex.source_uri now) s) ctr with
      | mk st err =>
        have hev := extract_and_link_events env nsp now
          (segment_text env.sentences_per_segment content ex.id nsp
            ex.source_uri now)
          (bulkUpsertSegments (segment_text env.sentences_per_segment content
            ex.id nsp ex.source_uri now) s) ctr
        rw [hex] at hev
        have hmapcount : ∀ target : StoreEvent,
            ((segment_text env.sentences_per_segment content ex.id nsp
              ex.source_uri now).map (fun _ => StoreEvent.segmentWrite)).count
              target = if (StoreEvent.segmentWrite == target) = true then
                (segment_text env.sentences_per_segment content ex.id nsp
                  ex.source_uri now).length else 0 := by
          intro target
          exact count_map_const _ _ _
        have hstcount : ∀ target, target ≠ StoreEvent.entityWrite →
            target ≠ StoreEvent.linkWrite → st.events.count target = 0 :=
          fun target ht1 ht2 => count_zero_of_entity_link st.events hev target ht1 ht2
        cases err with
        | some m =>
          dsimp only
          refine ⟨fun _ => ⟨by simp, ?_⟩, ?_, ?_⟩
          · rw [List.count_append, List.count_append, hmapcount,
              hstcount _ (by simp) (by simp)]
            simp
          · rw [List.count_append, List.count_append, hmapcount,
              hstcount _ (by simp) (by simp)]
            simp
          · rw [List.count_append, List.count_append, hmapcount,
              hstcount _ (by simp) (by simp)]
            simp
        | none =>
          dsimp only
          refine ⟨fun _ => ⟨by simp, ?_⟩, ?_, ?_⟩
          · rw [List.count_append, List.count_append, hmapcount,
              hstcount _ (by simp) (by simp)]
            simp
          · rw [List.count_append, List.count_append, hmapcount,
              hstcount _ (by simp) (by simp)]
            simp
          · rw [List.count_append, List.count_append, hmapcount,
              hstcount _ (by simp) (by simp)]
            simp

set_option maxRecDepth 1000000 in
/-- Counterexample to C4 as stated: re-ingesting the fixture file whose
stored content hash equals the recomputed one still runs the segmenter and
issues one segment write — the trace of the call is exactly
[segmenterRun, segmentWrite], not free of segmentation work. -/
theorem C4_counterexample :
    (ingest_text C4env C4content "lab" "file:///d.txt" [] 7 C4store 0).events =
      [StoreEvent.segmenterRun, StoreEvent.segmentWrite] := by
  decide

/-- Witness for C4 (amended) at the fixture: the register step returns the
existing IR untouched while the ingest trace still counts segment writes
equal to the segmentation length. -/
theorem C4_witness :
    register_ir C4env C4content "lab" "txt" "file:///d.txt" [] 7 C4store 0 =
      (C4ir, C4store, 0, []) ∧
    ((pyStrip C4content.data).isEmpty = false →
      StoreEvent.segmenterRun ∈
        (ingest_text C4env C4content "lab" "file:///d.txt" [] 7 C4store 0).events ∧
      (ingest_text C4env C4content "lab" "file:///d.txt" [] 7 C4store 0).events.count
          StoreEvent.segmentWrite =
        (segment_text C4env.sentences_per_segment C4content C4ir.id "lab"
          C4ir.source_uri 7).length) ∧
    (ingest_text C4env C4content "lab" "file:///d.txt" [] 7 C4store 0).events.count
      StoreEvent.irInsert = 0 ∧
    (ingest_text C4env C4content "lab" "file:///d.txt" [] 7 C4store 0).events.count
      StoreEvent.irUpdate = 0 :=
  C4_equal_hash_reingest_still_segments C4env C4content "lab" "file:///d.txt"
    [] 7 C4store 0 C4ir rfl rfl

/-! ## Namespace isolation (C6)

`NsExt A s0 s1` captures what one ingestion under namespace `A` may have
done to the store, as seen by the four tables the namespace-scoped queries
read: IR rows are updated in place without touching id/namespace/URI, plus
possibly appended namespace-`A` rows; the segments table gains only rows
pointing at one `A`-owned IR id and carrying previously absent ids; the
entities table gains only namespace-`A` rows; the embeddings table gains
only rows keyed by previously absent segment ids. -/

/-- Namespace-`A` extension relation between a base store and a later
store. -/
def NsExt (A : String) (s0 s1 : KnowledgeStore) : Prop :=
  (∃ g : InformationResource → InformationResource,
    ∃ irTail : List InformationResource,
    (∀ r : InformationResource, (g r).id = r.id ∧ (g r).nsp = r.nsp ∧
      (g r).source_uri = r.source_uri) ∧
    (∀ r ∈ irTail, r.nsp = A) ∧
    s1.information_resources = s0.information_resources.map g ++ irTail) ∧
  (∃ X : String, ∃ segTail : List ResourceSegment,
    (∃ ir, getIRById s1 X = some ir ∧ ir.nsp = A) ∧
    (∀ r ∈ segTail, r.ir_id = X ∧
      r.id ∉ s0.resource_segments.map (fun x => x.id)) ∧
    s1.resource_segments = s0.resource_segments ++ segTail) ∧
  (∃ entTail : List Entity, (∀ e ∈ entTail, e.nsp = A) ∧
    s1.entities = s0.entities ++ entTail) ∧
  (∃ embTail : List Embedding,
    (∀ e ∈ embTail, e.segment_id ∉ s0.resource_segments.map (fun x => x.id)) ∧
    s1.embeddings = s0.embeddings ++ embTail)

/-- `getIRById` only reads the IR table. -/
lemma getIRById_congr {s s' : KnowledgeStore}
    (h : s'.information_resources = s.information_resources) (z : String) :
    getIRById s' z = getIRById s z := by
  unfold getIRById
  rw [h]

/-- In a table with nodup ids, the id lookup of a member row returns that
very row. -/
lemma find?_id_of_nodup {l : List InformationResource}
    (hnodup : (l.map (fun r => r.id)).Nodup) {ex : InformationResource}
    (hmem : ex ∈ l) : l.find? (fun r => r.id == ex.id) = some ex := by
  have hsome : (l.find? (fun r => r.id == ex.id)).isSome = true :=
    List.find?_isSome.mpr ⟨ex, hmem, by simp⟩
  obtain ⟨r, hr⟩ := Option.isSome_iff_exists.mp hsome
  have hp := List.find?_some hr
  have hrid : r.id = ex.id := beq_iff_eq.mp hp
  have : r = ex :=
    List.inj_on_of_nodup_map hnodup (List.mem_of_find?_eq_some hr) hmem hrid
  rw [hr, this]

/-- An IR id that resolves in the base table resolves to its `g`-image in
the extended table. -/
lemma getIRById_ext_some {s0 s1 : KnowledgeStore}
    {g : InformationResource → InformationResource}
    {irTail : List InformationResource}
    (hg : ∀ r : InformationResource, (g r).id = r.id ∧ (g r).nsp = r.nsp ∧
      (g r).source_uri = r.source_uri)
    (hirs : s1.information_resources = s0.information_resources.map g ++ irTail)
    {z : String} {x : InformationResource} (hx : getIRById s0 z = some x) :
    getIRById s1 z = some (g x) := by
  unfold getIRById at hx ⊢
  rw [hirs, List.find?_append,
    find?_map_pred (fun r => r.id == z) g (fun y => by simp only [(hg y).1]), hx]
  rfl

/-- An IR id that does not resolve in the base table either stays
unresolved or resolves to an appended namespace-`A` row. -/
lemma getIRById_ext_none {A : String} {s0 s1 : KnowledgeStore}
    {g : InformationResource → InformationResource}
    {irTail : List InformationResource}
    (hg : ∀ r : InformationResource, (g r).id = r.id ∧ (g r).nsp = r.nsp ∧
      (g r).source_uri = r.source_uri)
    (hirA : ∀ r ∈ irTail, r.nsp = A)
    (hirs : s1.information_resources = s0.information_resources.map g ++ irTail)
    {z : String} (hx : getIRById s0 z = none) :
    getIRById s1 z = none ∨ ∃ t, getIRById s1 z = some t ∧ t.nsp = A := by
  unfold getIRById at hx ⊢
  rw [hirs, List.find?_append,
    find?_map_pred (fun r => r.id == z) g (fun y => by simp only [(hg y).1]), hx]
  cases hf2 : irTail.find? (fun r => r.id == z) with
  | none => exact Or.inl rfl
  | some t => exact Or.inr ⟨t, rfl, hirA t (List.mem_of_find?_eq_some hf2)⟩

/-- The per-segment filter predicate of namespace-scoped counting. -/
def irNspIs (s : KnowledgeStore) (z b : String) : Bool :=
  match getIRById s z with
  | some ir => ir.nsp == b
  | none => false

/-- Namespace-scoped counting, phrased through `irNspIs`. -/
lemma countSegments_some_filter (s : KnowledgeStore) (n : String) :
    countSegments s (some n) =
      (s.resource_segments.filter (fun seg => irNspIs s seg.ir_id n)).length :=
  rfl

/-- The counting predicate for any other namespace `B` is invariant under
a namespace-`A` IR extension. -/
lemma irNspIs_ext {A : String} (B : String) (hAB : A ≠ B)
    {s0 s1 : KnowledgeStore} {g : InformationResource → InformationResource}
    {irTail : List InformationResource}
    (hg : ∀ r : InformationResource, (g r).id = r.id ∧ (g r).nsp = r.nsp ∧
      (g r).source_uri = r.source_uri)
    (hirA : ∀ r ∈ irTail, r.nsp = A)
    (hirs : s1.information_resources = s0.information_resources.map g ++ irTail)
    (z : String) : irNspIs s1 z B = irNspIs s0 z B := by
  unfold irNspIs
  cases h0 : getIRById s0 z with
  | some x =>
    rw [getIRById_ext_some hg hirs h0]
    dsimp only
    rw [(hg x).2.1]
  | none =>
    rcases getIRById_ext_none hg hirA hirs h0 with hn | ⟨t, ht, htA⟩
    · rw [hn]
    · rw [ht]
      dsimp only
      rw [htA]
      exact beq_eq_false_iff_ne.mpr hAB

/-- The per-embedding-row join of `search_by_embedding`, named. -/
def embJoinRow1 (s : KnowledgeStore) (nsp : Option String) (e : Embedding) :
    Option EmbJoinRow :=
  (getSegmentById s e.segment_id).bind (fun seg =>
    (getIRById s seg.ir_id).bind (fun ir =>
      if (match nsp with | some n => ir.nsp == n | none => true) then
        some ⟨e.segment_id, e.vector, seg.text, seg.provenance,
          ir.source_uri, ir.nsp⟩
      else none))

/-- `embJoinRows` is the filterMap of the per-row join. -/
lemma embJoinRows_eq_row1 (s : KnowledgeStore) (nsp : Option String) :
    embJoinRows s nsp = s.embeddings.filterMap (embJoinRow1 s nsp) := rfl

/-- Each `B`-scoped join row computed against the extended store equals
the one computed against the base store. -/
lemma embJoinRow1_ext {A : String} (B : String) (hAB : A ≠ B)
    {s0 s1 : KnowledgeStore} {g : InformationResource → InformationResource}
    {irTail : List InformationResource}
    (hg : ∀ r : InformationResource, (g r).id = r.id ∧ (g r).nsp = r.nsp ∧
      (g r).source_uri = r.source_uri)
    (hirA : ∀ r ∈ irTail, r.nsp = A)
    (hirs : s1.information_resources = s0.information_resources.map g ++ irTail)
    {X : String} {segTail : List ResourceSegment} {irX : InformationResource}
    (hXres : getIRById s1 X = some irX) (hXnsp : irX.nsp = A)
    (hsegp : ∀ r ∈ segTail, r.ir_id = X ∧
      r.id ∉ s0.resource_segments.map (fun x => x.id))
    (hsegs : s1.resource_segments = s0.resource_segments ++ segTail)
    (e : Embedding) :
    embJoinRow1 s1 (some B) e = embJoinRow1 s0 (some B) e := by
  unfold embJoinRow1 getSegmentById
  rw [hsegs, List.find?_append]
  cases h0 : s0.resource_segments.find? (fun r => r.id == e.segment_id) with
  | some seg =>
    rw [Option.or_some]
    simp only [Option.some_bind]
    cases hir0 : getIRById s0 seg.ir_id with
    | some x =>
      rw [getIRById_ext_some hg hirs hir0]
      simp only [Option.some_bind]
      dsimp only
      rw [(hg x).2.1, (hg x).2.2]
    | none =>
      rcases getIRById_ext_none hg hirA hirs hir0 with hn | ⟨t, ht, htA⟩
      · rw [hn]
      · rw [ht]
        simp only [Option.some_bind, Option.none_bind]
        dsimp only
        simp [htA, beq_eq_false_iff_ne.mpr hAB]
  | none =>
    rw [Option.none_or]
    simp only [Option.none_bind]
    cases h2 : segTail.find? (fun r => r.id == e.segment_id) with
    | none => rfl
    | some t =>
      simp only [Option.some_bind]
      rw [(hsegp t (List.mem_of_find?_eq_some h2)).1, hXres]
      simp only [Option.some_bind]
      dsimp only
      simp [hXnsp, beq_eq_false_iff_ne.mpr hAB]

/-- Every segment produced by the emission loop satisfies a property that
every maker output and every accumulator entry satisfies. -/
lemma segEmitLoop_forall (n : Nat) (mk : Nat → List String → Nat → ResourceSegment)
    (P : ResourceSegment → Prop) (hmk : ∀ i b k, P (mk i b k)) :
    ∀ (sents : List String) (acc : List ResourceSegment), (∀ r ∈ acc, P r) →
      ∀ r ∈ segEmitLoop n mk sents acc, P r := by
  intro sents
  unfold segEmitLoop
  generalize batches n sents = bs
  induction bs with
  | nil => intro acc hacc; simpa using hacc
  | cons b bs ih =>
    intro acc hacc
    simp only [List.foldl_cons]
    by_cases he : (pyStrip (joinSp (b.2.map String.data))).isEmpty
    · rw [if_pos he]
      exact ih acc hacc
    · rw [if_neg he]
      refine ih _ ?_
      intro r hr
      rcases List.mem_append.mp hr with h1 | h2
      · exact hacc r h1
      · have h3 := List.mem_singleton.mp h2
        rw [h3]
        exact hmk _ _ _

/-- Every segment of plain-text segmentation carries the given IR id. -/
lemma segment_text_ir (n : Nat) (content ir_id nsp uri : String) (now : Nat) :
    ∀ r ∈ segment_text n content ir_id nsp uri now, r.ir_id = ir_id := by
  unfold segment_text
  refine segEmitLoop_forall n _ (fun r => r.ir_id = ir_id) ?_
    (split_sentences content) [] ?_
  · intro i b k
    rfl
  · intro r hr
    exact absurd hr (List.not_mem_nil r)

/-- Upserting a segment whose id is absent from a prefix of the table
keeps that prefix intact, touching only the remainder. -/
lemma upsertSegment_ext (P : String → String → Prop) (seg : ResourceSegment)
    (s : KnowledgeStore) (base tail : List ResourceSegment)
    (hs : s.resource_segments = base ++ tail)
    (hfr : seg.id ∉ base.map (fun r => r.id))
    (htail : ∀ r ∈ tail, P r.id r.ir_id)
    (hseg : P seg.id seg.ir_id) :
    ∃ tail2, (∀ r ∈ tail2, P r.id r.ir_id) ∧
      (upsertSegment seg s).2.resource_segments = base ++ tail2 := by
  unfold upsertSegment
  cases hex : getSegmentById s seg.id with
  | none =>
    refine ⟨tail ++ [seg], ?_, ?_⟩
    · intro r hr
      rcases List.mem_append.mp hr with h1 | h2
      · exact htail r h1
      · have h3 := List.mem_singleton.mp h2
        rw [h3]
        exact hseg
    · dsimp only
      rw [hs, List.append_assoc]
  | some ex =>
    dsimp only
    refine ⟨tail.map (fun r =>
      if r.id == seg.id then
        { r with text := seg.text, provenance := seg.provenance,
                 text_hash := seg.text_hash } else r), ?_, ?_⟩
    · intro r hr
      obtain ⟨r0, hr0, hEq⟩ := List.mem_map.mp hr
      have hfields : r.id = r0.id ∧ r.ir_id = r0.ir_id := by
        rw [← hEq]
        by_cases hc : (r0.id == seg.id) = true <;> simp [hc]
      rw [hfields.1, hfields.2]
      exact htail r0 hr0
    · rw [hs, List.map_append]
      have hbase : base.map (fun r =>
          if r.id == seg.id then
            { r with text := seg.text, provenance := seg.provenance,
                     text_hash := seg.text_hash } else r) = base.map id := by
        refine List.map_congr_left ?_
        intro r hr
        have hne : (r.id == seg.id) = false := by
          rw [beq_eq_false_iff_ne]
          intro hc
          exact hfr (hc ▸ List.mem_map_of_mem (fun r => r.id) hr)
        simp [hne]
      rw [hbase, List.map_id]

/-- Bulk upsert of rows fresh for a table prefix keeps the prefix and
extends only the remainder, preserving a row invariant. -/
lemma bulkUpsertSegments_ext (P : String → String → Prop) :
    ∀ (segs : List ResourceSegment) (s : KnowledgeStore)
      (base tail : List ResourceSegment),
      s.resource_segments = base ++ tail →
      (∀ seg ∈ segs, seg.id ∉ base.map (fun r => r.id) ∧ P seg.id seg.ir_id) →
      (∀ r ∈ tail, P r.id r.ir_id) →
      ∃ tail2, (∀ r ∈ tail2, P r.id r.ir_id) ∧
        (bulkUpsertSegments segs s).resource_segments = base ++ tail2 := by
  intro segs
  induction segs with
  | nil =>
    intro s base tail hs hsegs htail
    exact ⟨tail, htail, hs⟩
  | cons seg rest ih =>
    intro s base tail hs hsegs htail
    obtain ⟨tail2, ht2, hs2⟩ := upsertSegment_ext P seg s base tail hs
      (hsegs seg (List.mem_cons_self seg rest)).1 htail
      (hsegs seg (List.mem_cons_self seg rest)).2
    exact ih (upsertSegment seg s).2 base tail2 hs2
      (fun t ht => hsegs t (List.mem_cons_of_mem seg ht)) ht2

/-- Upserting an entity whose (namespace, type, name) key is absent
appends it. -/
lemma upsertEntity_insert (now : Nat) (e : Entity) (s : KnowledgeStore)
    (h : getEntityByName s e.nsp e.type e.name = none) :
    (upsertEntity now e s).2.entities = s.entities ++ [e] := by
  unfold upsertEntity
  rw [h]

/-- The candidate loop only appends namespace-`nsp` entities to the
entities table. -/
lemma linkCandidates_entities (env : PipelineEnv) (nsp : String) (now : Nat)
    (segId : String) :
    ∀ (cands : List ExtractedEntity) (st : LinkState),
    ∃ extra, (∀ e ∈ extra, e.nsp = nsp) ∧
      ((linkCandidates env nsp now segId cands st).1.store).entities =
        st.store.entities ++ extra := by
  intro cands
  induction cands with
  | nil => intro st; exact ⟨[], by simp, by simp [linkCandidates]⟩
  | cons c rest ih =>
    intro st
    unfold linkCandidates
    cases hfound : getEntityByName st.store nsp c.type c.name with
    | some e =>
      dsimp only
      cases hmk : mkEntityLink segId e.id "mentions" c.confidence now with
      | ok link =>
        obtain ⟨extra, hA, heq⟩ := ih { st with links := st.links ++ [link] }
        exact ⟨extra, hA, heq⟩
      | error m => exact ⟨[], by simp, by simp⟩
    | none =>
      dsimp only
      have hins : (upsertEntity now
          { id := env.idGen st.ctr, nsp := nsp, type := c.type, name := c.name,
            aliases := c.aliases, metadata := c.metadata,
            created_at := now, updated_at := now } st.store).2.entities =
          st.store.entities ++
            [{ id := env.idGen st.ctr, nsp := nsp, type := c.type,
               name := c.name, aliases := c.aliases, metadata := c.metadata,
               created_at := now, updated_at := now }] :=
        upsertEntity_insert now _ st.store hfound
      cases hmk : mkEntityLink segId ((upsertEntity now
          { id := env.idGen st.ctr, nsp := nsp, type := c.type, name := c.name,
            aliases := c.aliases, metadata := c.metadata,
            created_at := now, updated_at := now } st.store).1).id
          "mentions" c.confidence now with
      | ok link =>
        obtain ⟨extra, hA, heq⟩ := ih _
        refine ⟨{ id := env.idGen st.ctr, nsp := nsp, type := c.type,
                  name := c.name, aliases := c.aliases, metadata := c.metadata,
                  created_at := now, updated_at := now } :: extra, ?_, ?_⟩
        · intro e he
          rcases List.mem_cons.mp he with rfl | he
          · rfl
          · exact hA e he
        · rw [heq]
          show (upsertEntity now
            { id := env.idGen st.ctr, nsp := nsp, type := c.type, name := c.name,
              aliases := c.aliases, metadata := c.metadata,
              created_at := now, updated_at := now } st.store).2.entities ++ extra = _
          rw [hins, List.append_assoc]
          rfl
      | error m =>
        refine ⟨[{ id := env.idGen st.ctr, nsp := nsp, type := c.type,
                   name := c.name, aliases := c.aliases, metadata := c.metadata,
                   created_at := now, updated_at := now }], ?_, ?_⟩
        · intro e he
          have h3 := List.mem_singleton.mp he
          rw [h3]
        · show (upsertEntity now
            { id := env.idGen st.ctr, nsp := nsp, type := c.type, name := c.name,
              aliases := c.aliases, metadata := c.metadata,
              created_at := now, updated_at := now } st.store).2.entities = _
          exact hins

/-- The segment loop only appends namespace-`nsp` entities. -/
lemma linkSegments_entities (env : PipelineEnv) (nsp : String) (now : Nat) :
    ∀ (segs : List ResourceSegment) (st : LinkState),
    ∃ extra, (∀ e ∈ extra, e.nsp = nsp) ∧
      ((linkSegments env nsp now segs st).1.store).entities =
        st.store.entities ++ extra := by
  intro segs
  induction segs with
  | nil => intro st; exact ⟨[], by simp, by simp [linkSegments]⟩
  | cons seg rest ih =>
    intro st
    unfold linkSegments
    obtain ⟨e1, h1A, h1⟩ :=
      linkCandidates_entities env nsp now seg.id (env.extract seg.text) st
    cases hlc : linkCandidates env nsp now seg.id (env.extract seg.text) st with
    | mk st' err =>
      rw [hlc] at h1
      cases err with
      | none =>
        obtain ⟨e2, h2A, h2⟩ := ih st'
        refine ⟨e1 ++ e2, ?_, ?_⟩
        · intro e he
          rcases List.mem_append.mp he with he | he
          · exact h1A e he
          · exact h2A e he
        · rw [h2, h1, List.append_assoc]
      | some m => exact ⟨e1, h1A, h1⟩

/-- Extraction-and-linking only appends namespace-`nsp` entities. -/
lemma extract_and_link_ents (env : PipelineEnv) (nsp : String) (now : Nat)
    (segs : List ResourceSegment) (s : KnowledgeStore) (ctr : Nat) :
    ∃ extra, (∀ e ∈ extra, e.nsp = nsp) ∧
      ((extract_and_link_entities env nsp now segs s ctr).1.store).entities =
        s.entities ++ extra := by
  unfold extract_and_link_entities
  obtain ⟨e1, h1A, h1⟩ :=
    linkSegments_entities env nsp now segs ⟨s, ctr, [], [], []⟩
  cases hls : linkSegments env nsp now segs ⟨s, ctr, [], [], []⟩ with
  | mk st err =>
    rw [hls] at h1
    cases err with
    | some m => exact ⟨e1, h1A, h1⟩
    | none =>
      refine ⟨e1, h1A, ?_⟩
      dsimp only
      rw [(bulkAddEntityLinks_frame st.links st.store).2.2.1]
      exact h1

/-- The embedding fold appends rows keyed by ids of the folded segments,
keeping a prefix free of those keys intact. -/
lemma embedFold_ext (env : PipelineEnv) (model : String) (now : Nat) :
    ∀ (ts : List ResourceSegment) (s : KnowledgeStore)
      (base tail : List Embedding),
      s.embeddings = base ++ tail →
      (∀ seg ∈ ts, ∀ row ∈ base, (row.segment_id == seg.id) = false) →
      ∃ tail2,
        (∀ e ∈ tail2, e.segment_id ∈ ts.map (fun r => r.id) ∨
          e.segment_id ∈ tail.map (fun r => r.segment_id)) ∧
        (ts.foldl (fun acc seg =>
          addEmbedding now seg.id model (env.embed seg.text) acc) s).embeddings =
          base ++ tail2 := by
  intro ts
  induction ts with
  | nil =>
    intro s base tail hs hbase
    exact ⟨tail, fun e he => Or.inr (List.mem_map_of_mem _ he), hs⟩
  | cons t rest ih =>
    intro s base tail hs hbase
    simp only [List.foldl_cons]
    have hb : base.filter (fun e => !(e.segment_id == t.id)) = base := by
      refine List.filter_eq_self.mpr ?_
      intro a ha
      rw [hbase t (List.mem_cons_self t rest) a ha]
      rfl
    have hstep : (addEmbedding now t.id model (env.embed t.text) s).embeddings =
        base ++ (tail.filter (fun e => !(e.segment_id == t.id)) ++
          [⟨t.id, model, env.embed t.text, now⟩]) := by
      unfold addEmbedding
      dsimp only
      rw [hs, List.filter_append, List.append_assoc, hb]
    obtain ⟨tail2, h2, heq⟩ := ih (addEmbedding now t.id model (env.embed t.text) s)
      base (tail.filter (fun e => !(e.segment_id == t.id)) ++
        [⟨t.id, model, env.embed t.text, now⟩])
      hstep (fun seg hseg row hrow => hbase seg (List.mem_cons_of_mem t hseg) row hrow)
    refine ⟨tail2, ?_, heq⟩
    intro e he
    rcases h2 e he with h | h
    · refine Or.inl ?_
      rw [List.map_cons]
      exact List.mem_cons_of_mem _ h
    · rw [List.map_append] at h
      rcases List.mem_append.mp h with h | h
      · obtain ⟨r, hr, hrEq⟩ := List.mem_map.mp h
        exact Or.inr (hrEq ▸ List.mem_map_of_mem (fun r => r.segment_id)
          (List.mem_of_mem_filter hr))
      · simp only [List.map_cons, List.map_nil] at h
        have h3 := List.mem_singleton.mp h
        refine Or.inl ?_
        rw [h3, List.map_cons]
        exact List.mem_cons_self t.id _

/-- The embedding stage appends only rows keyed by ids of the given
segments. -/
lemma embed_segments_ext (env : PipelineEnv) (model : String) (now : Nat)
    (segs : List ResourceSegment) (s : KnowledgeStore) :
    ∃ tail, (∀ e ∈ tail, e.segment_id ∈ segs.map (fun r => r.id)) ∧
      ((embed_segments env model now segs s).1).embeddings =
        s.embeddings ++ tail := by
  unfold embed_segments
  dsimp only
  have hbase : ∀ seg ∈ segs.filter (fun seg => (getEmbedding s seg.id).isNone),
      ∀ row ∈ s.embeddings, (row.segment_id == seg.id) = false := by
    intro seg hseg row hrow
    have hp := List.of_mem_filter hseg
    unfold getEmbedding at hp
    cases hf : s.embeddings.find? (fun e => e.segment_id == seg.id) with
    | some x =>
      rw [hf] at hp
      simp at hp
    | none =>
      have hnp := List.find?_eq_none.mp hf row hrow
      cases hbv : (row.segment_id == seg.id) with
      | false => rfl
      | true => exact absurd hbv hnp
  obtain ⟨tail2, h2, heq⟩ := embedFold_ext env model now
    (segs.filter (fun seg => (getEmbedding s seg.id).isNone)) s
    s.embeddings [] (by rw [List.append_nil]) hbase
  refine ⟨tail2, ?_, heq⟩
  intro e he
  rcases h2 e he with h | h
  · obtain ⟨r, hr, hrEq⟩ := List.mem_map.mp h
    exact hrEq ▸ List.mem_map_of_mem (fun r => r.id) (List.mem_of_mem_filter hr)
  · simp at h

/-- The update path of the IR upsert: every row keeps id, namespace and
URI; the existing row's id resolves to its updated image. -/
lemma upsertInformationResource_update (now : Nat) (ir : InformationResource)
    (s : KnowledgeStore) (existing : InformationResource)
    (hfind : getIRByUri s ir.nsp ir.source_uri = some existing)
    (hnodup : (s.information_resources.map (fun r => r.id)).Nodup) :
    ∃ g : InformationResource → InformationResource,
      (∀ r : InformationResource, (g r).id = r.id ∧ (g r).nsp = r.nsp ∧
        (g r).source_uri = r.source_uri) ∧
      (upsertInformationResource now ir s).2.information_resources =
        s.information_resources.map g ∧
      getIRById (upsertInformationResource now ir s).2 existing.id =
        some (g existing) ∧
      (g existing).nsp = existing.nsp ∧
      (upsertInformationResource now ir s).1.id = existing.id := by
  unfold upsertInformationResource
  rw [hfind]
  dsimp only
  refine ⟨fun r => if r.id == existing.id then
      { r with content_hash := ir.content_hash, metadata := ir.metadata,
               updated_at := now } else r, ?_, rfl, ?_, ?_, rfl⟩
  · intro r
    by_cases hc : (r.id == existing.id) = true <;> simp [hc]
  · unfold getIRById
    dsimp only
    rw [find?_map_pred (fun r => r.id == existing.id)
      (fun r : InformationResource => if r.id == existing.id then
        { r with content_hash := ir.content_hash, metadata := ir.metadata,
                 updated_at := now } else r)
      (fun y => by by_cases hc : (y.id == existing.id) = true <;> simp [hc]),
      find?_id_of_nodup hnodup (List.mem_of_find?_eq_some hfind)]
    rfl
  · have hself : (existing.id == existing.id) = true := beq_self_eq_true _
    simp [hself]

/-- What `register_ir` does to the IR table: an in-place update preserving
id/namespace/URI on every row, plus at most one appended namespace-`A`
row; afterwards the returned record's id resolves to a namespace-`A`
row. -/
lemma register_ir_ns_ext (env : PipelineEnv) (content A sty uri : String)
    (md : List (String × String)) (now : Nat) (s : KnowledgeStore) (ctr : Nat)
    (hnodup : (s.information_resources.map (fun r => r.id)).Nodup)
    (hmint : ∀ k, env.idGen k ∉ s.information_resources.map (fun r => r.id)) :
    ∃ g : InformationResource → InformationResource,
    ∃ irTail : List InformationResource,
      (∀ r : InformationResource, (g r).id = r.id ∧ (g r).nsp = r.nsp ∧
        (g r).source_uri = r.source_uri) ∧
      (∀ r ∈ irTail, r.nsp = A) ∧
      (register_ir env content A sty uri md now s ctr).2.1.information_resources =
        s.information_resources.map g ++ irTail ∧
      (∃ ir, getIRById (register_ir env content A sty uri md now s ctr).2.1
          (register_ir env content A sty uri md now s ctr).1.id = some ir ∧
        ir.nsp = A) := by
  unfold register_ir
  cases hfind : getIRByUri s A uri with
  | some existing =>
    obtain ⟨hn, hu⟩ := getIRByUri_fields hfind
    have hexmem : existing ∈ s.information_resources :=
      List.mem_of_find?_eq_some hfind
    dsimp only
    by_cases hneq : existing.content_hash ≠ generate_content_hash (utf8Encode content)
    · rw [if_pos hneq]
      have hfind' : getIRByUri s existing.nsp existing.source_uri = some existing := by
        rw [hn, hu]
        exact hfind
      obtain ⟨g, hgp, heq, hres, hgnsp, hid⟩ :=
        upsertInformationResource_update now
          { existing with
            content_hash := generate_content_hash (utf8Encode content)
            metadata := if md.isEmpty then existing.metadata
                        else mergeMeta existing.metadata md }
          s existing hfind' hnodup
      refine ⟨g, [], hgp, fun r hr => absurd hr (List.not_mem_nil r), ?_, ?_⟩
      · rw [List.append_nil]
        exact heq
      · rw [hid, hres]
        exact ⟨g existing, rfl, hgnsp.trans hn⟩
    · rw [if_neg hneq]
      refine ⟨id, [], fun r => ⟨rfl, rfl, rfl⟩,
        fun r hr => absurd hr (List.not_mem_nil r),
        by rw [List.map_id, List.append_nil], ?_⟩
      refine ⟨existing, ?_, hn⟩
      unfold getIRById
      exact find?_id_of_nodup hnodup hexmem
  | none =>
    dsimp only
    unfold upsertInformationResource
    dsimp only
    rw [hfind]
    dsimp only
    refine ⟨id, [{ id := env.idGen ctr, nsp := A, source_type := sty,
                   source_uri := uri,
                   content_hash := generate_content_hash (utf8Encode content),
                   metadata := md, created_at := now, updated_at := now }],
      fun r => ⟨rfl, rfl, rfl⟩, ?_, by rw [List.map_id], ?_⟩
    · intro r hr
      have h3 := List.mem_singleton.mp hr
      rw [h3]
    · unfold getIRById
      dsimp only
      rw [List.find?_append]
      have h0 : s.information_resources.find?
          (fun r => r.id == env.idGen ctr) = none := by
        rw [List.find?_eq_none]
        intro r hr hc
        have h1 : r.id = env.idGen ctr := beq_iff_eq.mp hc
        exact hmint ctr (h1 ▸ List.mem_map_of_mem (fun r => r.id) hr)
      rw [h0, Option.none_or]
      refine ⟨{ id := env.idGen ctr, nsp := A, source_type := sty,
                source_uri := uri,
                content_hash := generate_content_hash (utf8Encode content),
                metadata := md, created_at := now, updated_at := now }, ?_, rfl⟩
      simp

/-- Running `ingest_text` under namespace `A` produces a namespace-`A`
extension of the store; the embeddings table is untouched, and the
segments of an ok result have ids fresh for the base store. -/
lemma ingest_text_ns_ext (env : PipelineEnv) (content A uri : String)
    (md : List (String × String)) (now : Nat) (s0 : KnowledgeStore) (ctr : Nat)
    (hnodup : (s0.information_resources.map (fun r => r.id)).Nodup)
    (hmint : ∀ k, env.idGen k ∉ s0.information_resources.map (fun r => r.id))
    (hfresh : ∀ sid ∈ (segment_text env.sentences_per_segment content "" A uri 0).map
        (fun r => r.id), sid ∉ s0.resource_segments.map (fun r => r.id)) :
    NsExt A s0 (ingest_text env content A uri md now s0 ctr).store ∧
    (ingest_text env content A uri md now s0 ctr).store.embeddings =
      s0.embeddings ∧
    ∀ res, (ingest_text env content A uri md now s0 ctr).result = .ok res →
      ∀ seg ∈ res.segments, seg.id ∉ s0.resource_segments.map (fun r => r.id) := by
  obtain ⟨hfind, hhash, huri, hsegsF, hentsF, hembsF⟩ :=
    register_ir_spec env content A "txt" uri md now s0 ctr
  obtain ⟨g, irTail, hg, hirA, hirsEq, irX, hXres, hXnsp⟩ :=
    register_ir_ns_ext env content A "txt" uri md now s0 ctr hnodup hmint
  unfold ingest_text
  dsimp only
  by_cases hempty : (pyStrip content.data).isEmpty
  · rw [if_pos hempty]
    refine ⟨⟨⟨g, irTail, hg, hirA, hirsEq⟩,
      ⟨(register_ir env content A "txt" uri md now s0 ctr).1.id, [],
        ⟨irX, hXres, hXnsp⟩,
        fun r hr => absurd hr (List.not_mem_nil r), ?_⟩,
      ⟨[], fun e he => absurd he (List.not_mem_nil e), ?_⟩,
      ⟨[], fun e he => absurd he (List.not_mem_nil e), ?_⟩⟩, ?_, ?_⟩
    · rw [hsegsF, List.append_nil]
    · rw [hentsF, List.append_nil]
    · rw [hembsF, List.append_nil]
    · exact hembsF
    · intro res hres seg hseg
      injection hres with h
      subst h
      simp at hseg
  · rw [if_neg hempty]
    rw [huri]
    have hids : (segment_text env.sentences_per_segment content
        (register_ir env content A "txt" uri md now s0 ctr).1.id A uri now).map
        (fun r => r.id) =
        (segment_text env.sentences_per_segment content "" A uri 0).map
        (fun r => r.id) :=
      segment_text_id_proj env.sentences_per_segment content A uri _ "" now 0
    have hfresh' : ∀ seg ∈ segment_text env.sentences_per_segment content
        (register_ir env content A "txt" uri md now s0 ctr).1.id A uri now,
        seg.id ∉ s0.resource_segments.map (fun r => r.id) := by
      intro seg hseg
      apply hfresh
      rw [← hids]
      exact List.mem_map_of_mem (fun r => r.id) hseg
    have hirid : ∀ seg ∈ segment_text env.sentences_per_segment content
        (register_ir env content A "txt" uri md now s0 ctr).1.id A uri now,
        seg.ir_id = (register_ir env content A "txt" uri md now s0 ctr).1.id :=
      segment_text_ir env.sentences_per_segment content _ A uri now
    by_cases hse : (segment_text env.sentences_per_segment content
        (register_ir env content A "txt" uri md now s0 ctr).1.id A uri now).isEmpty
    · rw [if_pos hse]
      refine ⟨⟨⟨g, irTail, hg, hirA, hirsEq⟩,
        ⟨(register_ir env content A "txt" uri md now s0 ctr).1.id, [],
          ⟨irX, hXres, hXnsp⟩,
          fun r hr => absurd hr (List.not_mem_nil r), ?_⟩,
        ⟨[], fun e he => absurd he (List.not_mem_nil e), ?_⟩,
        ⟨[], fun e he => absurd he (List.not_mem_nil e), ?_⟩⟩, ?_, ?_⟩
      · rw [hsegsF, List.append_nil]
      · rw [hentsF, List.append_nil]
      · rw [hembsF, List.append_nil]
      · exact hembsF
      · intro res hres seg hseg
        injection hres with h
        subst h
        simp at hseg
    · rw [if_neg hse]
      obtain ⟨segTail, hsegTp, hsegTeq⟩ :=
        bulkUpsertSegments_ext
          (fun sid irid =>
            irid = (register_ir env content A "txt" uri md now s0 ctr).1.id ∧
            sid ∉ s0.resource_segments.map (fun r => r.id))
          (segment_text env.sentences_per_segment content
            (register_ir env content A "txt" uri md now s0 ctr).1.id A uri now)
          (register_ir env content A "txt" uri md now s0 ctr).2.1
          s0.resource_segments []
          (by rw [hsegsF, List.append_nil])
          (fun seg hseg => ⟨hfresh' seg hseg, hirid seg hseg, hfresh' seg hseg⟩)
          (fun r hr => absurd hr (List.not_mem_nil r))
      cases hex : extract_and_link_entities env A now
          (segment_text env.sentences_per_segment content
            (register_ir env content A "txt" uri md now s0 ctr).1.id A uri now)
          (bulkUpsertSegments (segment_text env.sentences_per_segment content
            (register_ir env content A "txt" uri md now s0 ctr).1.id A uri now)
            (register_ir env content A "txt" uri md now s0 ctr).2.1)
          (register_ir env content A "txt" uri md now s0 ctr).2.2.1 with
      | mk st err =>
        have hfr := extract_and_link_entities_frame env A now
          (segment_text env.sentences_per_segment content
            (register_ir env content A "txt" uri md now s0 ctr).1.id A uri now)
          (bulkUpsertSegments (segment_text env.sentences_per_segment content
            (register_ir env content A "txt" uri md now s0 ctr).1.id A uri now)
            (register_ir env content A "txt" uri md now s0 ctr).2.1)
          (register_ir env content A "txt" uri md now s0 ctr).2.2.1
        rw [hex] at hfr
        obtain ⟨extra, hextraA, hextraEq⟩ := extract_and_link_ents env A now
          (segment_text env.sentences_per_segment content
            (register_ir env content A "txt" uri md now s0 ctr).1.id A uri now)
          (bulkUpsertSegments (segment_text env.sentences_per_segment content
            (register_ir env content A "txt" uri md now s0 ctr).1.id A uri now)
            (register_ir env content A "txt" uri md now s0 ctr).2.1)
          (register_ir env content A "txt" uri md now s0 ctr).2.2.1
        rw [hex] at hextraEq
        have hbfr := bulkUpsertSegments_frame
          (segment_text env.sentences_per_segment content
            (register_ir env content A "txt" uri md now s0 ctr).1.id A uri now)
          (register_ir env content A "txt" uri md now s0 ctr).2.1
        have hirsSt : st.store.information_resources =
            s0.information_resources.map g ++ irTail := by
          rw [hfr.1, hbfr.1]
          exact hirsEq
        have hsegsSt : st.store.resource_segments =
            s0.resource_segments ++ segTail := by
          rw [hfr.2.1]
          exact hsegTeq
        have hentsSt : st.store.entities = s0.entities ++ extra := by
          rw [hextraEq, hbfr.2.1, hentsF]
        have hembsSt : st.store.embeddings = s0.embeddings := by
          rw [hfr.2.2, hbfr.2.2.2]
          exact hembsF
        have hXid : st.store.information_resources =
            (register_ir env content A "txt" uri md now s0 ctr).2.1.information_resources := by
          rw [hfr.1, hbfr.1]
        have hXresSt : getIRById st.store
            (register_ir env content A "txt" uri md now s0 ctr).1.id = some irX := by
          rw [getIRById_congr hXid]
          exact hXres
        cases err with
        | some m =>
          dsimp only
          refine ⟨⟨⟨g, irTail, hg, hirA, hirsSt⟩,
            ⟨(register_ir env content A "txt" uri md now s0 ctr).1.id, segTail,
              ⟨irX, hXresSt, hXnsp⟩, hsegTp, hsegsSt⟩,
            ⟨extra, hextraA, hentsSt⟩,
            ⟨[], fun e he => absurd he (List.not_mem_nil e),
              by rw [hembsSt, List.append_nil]⟩⟩, hembsSt, ?_⟩
          intro res hres
          exact absurd hres (fun hc => Except.noConfusion hc)
        | none =>
          dsimp only
          refine ⟨⟨⟨g, irTail, hg, hirA, hirsSt⟩,
            ⟨(register_ir env content A "txt" uri md now s0 ctr).1.id, segTail,
              ⟨irX, hXresSt, hXnsp⟩, hsegTp, hsegsSt⟩,
            ⟨extra, hextraA, hentsSt⟩,
            ⟨[], fun e he => absurd he (List.not_mem_nil e),
              by rw [hembsSt, List.append_nil]⟩⟩, hembsSt, ?_⟩
          intro res hres seg hseg
          injection hres with h
          subst h
          exact hfresh' seg hseg

/-- Running the whole `ingest_file` under namespace `A` produces a
namespace-`A` extension of the store. -/
lemma ingest_file_ns_ext (env : PipelineEnv) (model content A uri : String)
    (md : List (String × String)) (now : Nat) (s0 : KnowledgeStore) (ctr : Nat)
    (hnodup : (s0.information_resources.map (fun r => r.id)).Nodup)
    (hmint : ∀ k, env.idGen k ∉ s0.information_resources.map (fun r => r.id))
    (hfresh : ∀ sid ∈ (segment_text env.sentences_per_segment content "" A uri 0).map
        (fun r => r.id), sid ∉ s0.resource_segments.map (fun r => r.id)) :
    NsExt A s0 (ingest_file env model content A uri md now s0 ctr).store := by
  obtain ⟨hns, hembs0, hsegres⟩ :=
    ingest_text_ns_ext env content A uri md now s0 ctr hnodup hmint hfresh
  unfold ingest_file
  dsimp only
  cases hres : (ingest_text env content A uri md now s0 ctr).result with
  | error m => exact hns
  | ok r =>
    dsimp only
    by_cases hre : r.segments.isEmpty
    · rw [if_pos hre]
      exact hns
    · rw [if_neg hre]
      dsimp only
      obtain ⟨embTail, hkeys, hembEq⟩ := embed_segments_ext env model now
        r.segments (ingest_text env content A uri md now s0 ctr).store
      have hfr := embed_segments_frame env model now r.segments
        (ingest_text env content A uri md now s0 ctr).store
      obtain ⟨⟨g, irTail, hg, hirA, hirs⟩,
        ⟨X, segTail, ⟨irX, hXr, hXn⟩, hsegp, hsegeq⟩,
        ⟨entTail, hentA, henteq⟩, _⟩ := hns
      refine ⟨⟨g, irTail, hg, hirA, ?_⟩,
        ⟨X, segTail, ⟨irX, ?_, hXn⟩, hsegp, ?_⟩,
        ⟨entTail, hentA, ?_⟩, ⟨embTail, ?_, ?_⟩⟩
      · rw [hfr.1]
        exact hirs
      · rw [getIRById_congr hfr.1]
        exact hXr
      · rw [hfr.2.1]
        exact hsegeq
      · rw [hfr.2.2.1]
        exact henteq
      · intro e he
        obtain ⟨seg, hsegmem, hkeyeq⟩ := List.mem_map.mp (hkeys e he)
        have h5 := hsegres r hres seg hsegmem
        rw [hkeyeq] at h5
        exact h5
      · rw [hembEq, hembs0]

/-- Segment counting scoped to another namespace is invariant under a
namespace-`A` extension. -/
lemma nsExt_countSegments {A : String} (B : String) (hAB : A ≠ B)
    {s0 s1 : KnowledgeStore} (h : NsExt A s0 s1) :
    countSegments s1 (some B) = countSegments s0 (some B) := by
  obtain ⟨⟨g, irTail, hg, hirA, hirs⟩,
    ⟨X, segTail, ⟨irX, hXres, hXnsp⟩, hsegp, hsegs⟩, _, _⟩ := h
  rw [countSegments_some_filter, countSegments_some_filter, hsegs,
    List.filter_append]
  have h1 : s0.resource_segments.filter (fun seg => irNspIs s1 seg.ir_id B) =
      s0.resource_segments.filter (fun seg => irNspIs s0 seg.ir_id B) :=
    List.filter_congr (fun seg _ => irNspIs_ext B hAB hg hirA hirs seg.ir_id)
  have h2 : segTail.filter (fun seg => irNspIs s1 seg.ir_id B) = [] := by
    rw [List.filter_eq_nil_iff]
    intro r hr hc
    rw [(hsegp r hr).1] at hc
    unfold irNspIs at hc
    rw [hXres] at hc
    dsimp only at hc
    rw [hXnsp] at hc
    exact hAB (beq_iff_eq.mp hc)
  rw [h1, h2, List.append_nil]

/-- Entity lookup under another namespace is invariant under a
namespace-`A` extension. -/
lemma nsExt_getEntityByName {A : String} (B : String) (hAB : A ≠ B)
    {s0 s1 : KnowledgeStore} (h : NsExt A s0 s1) (ty nm : String) :
    getEntityByName s1 B ty nm = getEntityByName s0 B ty nm := by
  obtain ⟨_, _, ⟨entTail, hentA, hents⟩, _⟩ := h
  unfold getEntityByName
  rw [hents, List.find?_append]
  have h0 : entTail.find?
      (fun r => r.nsp == B && r.type == ty && r.name == nm) = none := by
    rw [List.find?_eq_none]
    intro e he hc
    simp only [Bool.and_eq_true, beq_iff_eq] at hc
    exact hAB ((hentA e he).symm.trans hc.1.1)
  rw [h0, Option.or_none]

/-- Entity listing under another namespace is invariant under a
namespace-`A` extension. -/
lemma nsExt_listEntities {A : String} (B : String) (hAB : A ≠ B)
    {s0 s1 : KnowledgeStore} (h : NsExt A s0 s1) (ty : Option String) :
    listEntities s1 (some B) ty = listEntities s0 (some B) ty := by
  obtain ⟨_, _, ⟨entTail, hentA, hents⟩, _⟩ := h
  unfold listEntities
  rw [hents, List.filter_append]
  have h0 : entTail.filter (fun r =>
      (match (some B : Option String) with | some n => r.nsp == n | none => true) &&
      (match ty with | some t => r.type == t | none => true)) = [] := by
    rw [List.filter_eq_nil_iff]
    intro e he hc
    simp only [Bool.and_eq_true] at hc
    have hc1 : (e.nsp == B) = true := hc.1
    exact hAB ((hentA e he).symm.trans (beq_iff_eq.mp hc1))
  rw [h0, List.append_nil]

/-- Scored embedding search under another namespace is invariant under a
namespace-`A` extension. -/
lemma nsExt_scoredCandidates {A : String} (B : String) (hAB : A ≠ B)
    {s0 s1 : KnowledgeStore} (h : NsExt A s0 s1) (q : List ℚ) :
    scoredCandidates s1 q (some B) = scoredCandidates s0 q (some B) := by
  obtain ⟨⟨g, irTail, hg, hirA, hirs⟩,
    ⟨X, segTail, ⟨irX, hXres, hXnsp⟩, hsegp, hsegs⟩, _,
    ⟨embTail, hembf, hembs⟩⟩ := h
  unfold scoredCandidates
  have hjoin : embJoinRows s1 (some B) = embJoinRows s0 (some B) := by
    rw [embJoinRows_eq_row1, embJoinRows_eq_row1, hembs, List.filterMap_append]
    have h1 : s0.embeddings.filterMap (embJoinRow1 s1 (some B)) =
        s0.embeddings.filterMap (embJoinRow1 s0 (some B)) :=
      List.filterMap_congr (fun e _ =>
        embJoinRow1_ext B hAB hg hirA hirs hXres hXnsp hsegp hsegs e)
    have h2 : embTail.filterMap (embJoinRow1 s1 (some B)) = [] := by
      rw [List.filterMap_eq_nil_iff]
      intro e he
      rw [embJoinRow1_ext B hAB hg hirA hirs hXres hXnsp hsegp hsegs e]
      unfold embJoinRow1
      have h3 : getSegmentById s0 e.segment_id = none := by
        unfold getSegmentById
        rw [List.find?_eq_none]
        intro r hr hc
        have h4 : r.id = e.segment_id := beq_iff_eq.mp hc
        exact (hembf e he) (h4 ▸ List.mem_map_of_mem (fun x => x.id) hr)
      rw [h3]
      rfl
    rw [h1, h2, List.append_nil]
  rw [hjoin]

/-- C6: ingesting a file under namespace A leaves every namespace-scoped
query under a distinct namespace B unchanged — segment counting, entity
lookup by name, entity listing, and scored embedding search — and every
entity record the ingestion adds carries namespace A, so the two
namespaces never share Entity records.  The hypotheses model store
invariants of the code: IR ids are unique (primary key), uuid4 mints ids
absent from the table, and the SHA-256 segment ids of the new content do
not collide with stored segment ids. -/
theorem C6_namespace_isolation (env : PipelineEnv)
    (model content A B uri : String) (hAB : A ≠ B)
    (md : List (String × String)) (now : Nat)
    (s0 : KnowledgeStore) (ctr : Nat)
    (hnodup : (s0.information_resources.map (fun r => r.id)).Nodup)
    (hmint : ∀ k, env.idGen k ∉ s0.information_resources.map (fun r => r.id))
    (hfresh : ∀ sid ∈ (segment_text env.sentences_per_segment content "" A uri 0).map
        (fun r => r.id), sid ∉ s0.resource_segments.map (fun r => r.id)) :
    countSegments (ingest_file env model content A uri md now s0 ctr).store
        (some B) = countSegments s0 (some B) ∧
    (∀ ty nm, getEntityByName
        (ingest_file env model content A uri md now s0 ctr).store B ty nm =
      getEntityByName s0 B ty nm) ∧
    (∀ ty, listEntities
        (ingest_file env model content A uri md now s0 ctr).store (some B) ty =
      listEntities s0 (some B) ty) ∧
    (∀ q : List ℚ, scoredCandidates
        (ingest_file env model content A uri md now s0 ctr).store q (some B) =
      scoredCandidates s0 q (some B)) ∧
    (∀ e ∈ (ingest_file env model content A uri md now s0 ctr).store.entities,
      e ∈ s0.entities ∨ e.nsp = A) := by
  have h := ingest_file_ns_ext env model content A uri md now s0 ctr
    hnodup hmint hfresh
  refine ⟨nsExt_countSegments B hAB h,
    fun ty nm => nsExt_getEntityByName B hAB h ty nm,
    fun ty => nsExt_listEntities B hAB h ty,
    fun q => nsExt_scoredCandidates B hAB h q, ?_⟩
  obtain ⟨_, _, ⟨entTail, hentA, hents⟩, _⟩ := h
  intro e he
  rw [hents] at he
  rcases List.mem_append.mp he with he | he
  · exact Or.inl he
  · exact Or.inr (hentA e he)

/-- Pipeline environment fixture for the isolation witness. -/
def C6env : PipelineEnv :=
  ⟨fun _ => [], fun _ => [], fun k => "id" ++ toString k, 3⟩

/-- Witness for C6 at the empty store: the freshness and uniqueness
hypotheses hold trivially and every B-scoped query is unchanged by an
ingestion under namespace a. -/
theorem C6_witness :
    (("a" : String) ≠ "b") ∧
    ((emptyStore.information_resources.map (fun r => r.id)).Nodup ∧
     (∀ k, C6env.idGen k ∉
        emptyStore.information_resources.map (fun r => r.id)) ∧
     (∀ sid ∈ (segment_text C6env.sentences_per_segment "" "" "a"
          "file:///w.txt" 0).map (fun r => r.id),
        sid ∉ emptyStore.resource_segments.map (fun r => r.id))) ∧
    (countSegments
        (ingest_file C6env "m" "" "a" "file:///w.txt" [] 0 emptyStore 0).store
        (some "b") = countSegments emptyStore (some "b") ∧
     (∀ ty nm, getEntityByName
        (ingest_file C6env "m" "" "a" "file:///w.txt" [] 0 emptyStore 0).store
        "b" ty nm = getEntityByName emptyStore "b" ty nm) ∧
     (∀ ty, listEntities
        (ingest_file C6env "m" "" "a" "file:///w.txt" [] 0 emptyStore 0).store
        (some "b") ty = listEntities emptyStore (some "b") ty) ∧
     (∀ q : List ℚ, scoredCandidates
        (ingest_file C6env "m" "" "a" "file:///w.txt" [] 0 emptyStore 0).store
        q (some "b") = scoredCandidates emptyStore q (some "b")) ∧
     (∀ e ∈ (ingest_file C6env "m" "" "a" "file:///w.txt" [] 0
          emptyStore 0).store.entities,
        e ∈ emptyStore.entities ∨ e.nsp = "a")) :=
  ⟨by decide,
   ⟨by simp [emptyStore], by simp [emptyStore], by simp [emptyStore]⟩,
   C6_namespace_isolation C6env "m" "" "a" "b" "file:///w.txt" (by decide) [] 0
     emptyStore 0 (by simp [emptyStore]) (by simp [emptyStore])
     (by simp [emptyStore])⟩

end DocMine

set_option maxRecDepth 40000 in
example :
    DocMine.sha256Hex (DocMine.utf8Encode "abc") =
      "ba7816bf8f01cfea414140de5dae2223b00361a396177a9cb410ff61f20015ad" := by
  decide

example : DocMine.normalize_text "  a \t b\n c  " = "a b c" := by decide
